import Mathlib

/-!
Verification development for `openff/interchange/components/foyer.py`.

The module is a set of adapters that map topological features (atoms, bonds,
angles, torsions) to engine-assigned atom-type identifiers and then to
physical parameters with unit tagging.  Python dictionaries are modelled as
association lists with Python's update-in-place-or-append insertion semantics;
exceptions are modelled with an explicit error type; the external foyer
engine (`Forcefield.get_parameters`, `find_atomtypes`) is modelled as an
abstract function supplied as an argument.  Pint quantities are modelled
syntactically: a parameter value is either a raw engine number or a value
multiplied by a unit, exactly mirroring the `value * unit` expressions in the
source.
-/

/-- Units that appear in the source module (`openff.units.unit`). -/
inductive UnitE where
  | kJ_per_mol
  | nm
  | elementary_charge
  | dimensionless
  | kJ_per_mol_per_nm2
  | kJ_per_mol_per_rad2
deriving DecidableEq

/-- A parameter value: either a raw number coming from the engine (its float
magnitude abstracted as an integer token, since the module never computes
with it) or a value multiplied by a unit (`value * units` in the source). -/
inductive PVal where
  | raw (x : Int)
  | mul (v : PVal) (u : UnitE)
deriving DecidableEq

/-- `openff.interchange.models.TopologyKey`, restricted to the only field
this module uses: the tuple of atom indices. -/
structure TopologyKey where
  atom_indices : List Nat
deriving DecidableEq

/-- `openff.interchange.models.PotentialKey`, restricted to its `id` field. -/
structure PotentialKey where
  id : String
deriving DecidableEq

/-- Exceptions raised by the engine or by Python dictionary lookups. -/
inductive Err where
  | missingForce
  | missingParams
  | keyError
deriving DecidableEq

/-- A Python `Dict[K, V]`: an association list with no duplicate keys. -/
abbrev PyDict (K V : Type) := List (K × V)

/-- Dictionary lookup, `d[k]`-style but returning an `Option`. -/
def dget {K V : Type} [DecidableEq K] : PyDict K V → K → Option V
  | [], _ => none
  | (k', v) :: rest, k => if k' = k then some v else dget rest k

/-- Dictionary assignment `d[k] = v`: update in place if `k` is present
(keeping its position, as Python dicts do), otherwise append. -/
def dinsert {K V : Type} [DecidableEq K] : PyDict K V → K → V → PyDict K V
  | [], k, v => [(k, v)]
  | (k', v') :: rest, k, v =>
    if k' = k then (k, v) :: rest else (k', v') :: dinsert rest k v

/-- `d.pop(k, None)`: remove the entry for `k` if present. -/
def dpop {K V : Type} [DecidableEq K] : PyDict K V → K → PyDict K V
  | [], _ => []
  | (k', v') :: rest, k => if k' = k then rest else (k', v') :: dpop rest k

/-- Parameter dictionaries handed around by the module. -/
abbrev ParamsDict := PyDict String PVal

/-- `openff.interchange.components.potentials.Potential`, restricted to its
`parameters` field. -/
structure Potential where
  parameters : ParamsDict
deriving DecidableEq

/-- The external foyer force field: `get_parameters(group, key)` either
returns a parameter dictionary or raises `MissingForceError` /
`MissingParametersError`.  The single-string key used for atoms is passed
as a one-element list. -/
structure Forcefield where
  get_parameters : String → List String → Except Err ParamsDict

/-- `POTENTIAL_KEY_SEPARATOR = "-"` from the source. -/
def POTENTIAL_KEY_SEPARATOR : String := "-"

/-- `_copy_params(params, *drop_keys, param_units=...)`: copy the dictionary,
pop each drop key, then multiply each entry named in `param_units` by its
unit, raising `KeyError` when such an entry is absent.  This is the pure
(value-level) reading; `copy_params_heap` below makes the object identities
explicit. -/
def unitLoop : List (String × UnitE) → ParamsDict → Except Err ParamsDict
  | [], d => .ok d
  | (k, u) :: rest, d =>
    match dget d k with
    | none => .error .keyError
    | some v => unitLoop rest (dinsert d k (.mul v u))

def copy_params (params : ParamsDict) (drop_keys : List String)
    (param_units : List (String × UnitE)) : Except Err ParamsDict :=
  unitLoop param_units (drop_keys.foldl (fun d k => dpop d k) params)

/-- `_get_potential_key_id(atom_slots, idx)`: look up the one-atom topology
key and return the id of its potential key; a missing key raises `KeyError`. -/
def get_potential_key_id (atom_slots : PyDict TopologyKey PotentialKey)
    (idx : Nat) : Except Err String :=
  match dget atom_slots ⟨[idx]⟩ with
  | none => .error .keyError
  | some pk => .ok pk.id

/-- The result of `find_atomtypes` for one atom: the module only reads its
`"atomtype"` entry. -/
structure AtomTypeInfo where
  atomtype : String
deriving DecidableEq

/-- `FoyerVDWHandler.type`. -/
def FoyerVDWHandler.type : String := "atoms"

/-- `FoyerVDWHandler.store_matches`: for each `(key, val)` of the engine's
type map, set `slot_map[TopologyKey(atom_indices=(key,))] =
PotentialKey(id=val["atomtype"])`.  The engine call `find_atomtypes` is
external, so its result `type_map` is taken as an argument. -/
def FoyerVDWHandler.store_matches : List (Nat × AtomTypeInfo) →
    PyDict TopologyKey PotentialKey → PyDict TopologyKey PotentialKey
  | [], slot_map => slot_map
  | kv :: rest, slot_map =>
    FoyerVDWHandler.store_matches rest (dinsert slot_map ⟨[kv.1]⟩ ⟨kv.2.atomtype⟩)

/-- The loop body of `FoyerVDWHandler.store_potentials`, threading the
`potentials` dictionary and stopping at the first uncaught exception. -/
def vdwPotGo (ff : Forcefield) :
    List (TopologyKey × PotentialKey) → PyDict PotentialKey Potential →
    PyDict PotentialKey Potential × Option Err
  | [], pots => (pots, none)
  | (_, pk) :: rest, pots =>
    match ff.get_parameters FoyerVDWHandler.type [pk.id] with
    | .error e => (pots, some e)
    | .ok atom_params =>
      match copy_params atom_params ["charge"]
          [("epsilon", .kJ_per_mol), ("sigma", .nm)] with
      | .error e => (pots, some e)
      | .ok p => vdwPotGo ff rest (dinsert pots pk ⟨p⟩)

/-- `FoyerVDWHandler.store_potentials`: for every key of `slot_map`, fetch
the atom parameters, drop `"charge"`, tag `"epsilon"` with kJ/mol and
`"sigma"` with nm, and store the potential.  Exceptions propagate. -/
def FoyerVDWHandler.store_potentials (ff : Forcefield)
    (slot_map : PyDict TopologyKey PotentialKey)
    (potentials : PyDict PotentialKey Potential) :
    PyDict PotentialKey Potential × Option Err :=
  vdwPotGo ff slot_map potentials

/-- The loop body of `FoyerElectrostaticsHandler.store_charges`. -/
def chargesGo (ff : Forcefield) :
    List (TopologyKey × PotentialKey) → PyDict TopologyKey PVal →
    PyDict TopologyKey PVal × Option Err
  | [], ch => (ch, none)
  | (tk, pk) :: rest, ch =>
    match ff.get_parameters "atoms" [pk.id] with
    | .error e => (ch, some e)
    | .ok foyer_params =>
      match dget foyer_params "charge" with
      | none => (ch, some .keyError)
      | some c => chargesGo ff rest (dinsert ch tk (.mul c .elementary_charge))

/-- `FoyerElectrostaticsHandler.store_charges`: for every
`(top_key, pot_key)` of `atom_slots`, store the engine's `"charge"` value
multiplied by the elementary charge unit. -/
def FoyerElectrostaticsHandler.store_charges
    (atom_slots : PyDict TopologyKey PotentialKey) (ff : Forcefield)
    (charges : PyDict TopologyKey PVal) :
    PyDict TopologyKey PVal × Option Err :=
  chargesGo ff atom_slots charges

/-- One connection read from the topology: the ordered list of
`atom.topology_atom_index` values of its atoms. -/
abbrev Connection := List Nat

/-- `tuple(_get_potential_key_id(atom_slots, idx) for idx in atoms_indices)`:
collect the potential-key ids for the atoms of one connection, failing at
the first missing atom. -/
def potKeyIds (atom_slots : PyDict TopologyKey PotentialKey) :
    Connection → Except Err (List String)
  | [] => .ok []
  | idx :: rest => do
    let i ← get_potential_key_id atom_slots idx
    let is ← potKeyIds atom_slots rest
    pure (i :: is)

/-- The loop body of `FoyerConnectedAtomsHandler.store_matches`. -/
def connMatchesGo (atom_slots : PyDict TopologyKey PotentialKey) :
    List Connection → PyDict TopologyKey PotentialKey →
    PyDict TopologyKey PotentialKey × Option Err
  | [], sm => (sm, none)
  | conn :: rest, sm =>
    match potKeyIds atom_slots conn with
    | .error e => (sm, some e)
    | .ok ids =>
      connMatchesGo atom_slots rest
        (dinsert sm ⟨conn⟩ ⟨String.intercalate POTENTIAL_KEY_SEPARATOR ids⟩)

/-- `FoyerConnectedAtomsHandler.store_matches`: for each connection read
from the topology attribute named by `connection_attribute` (the topology is
external, so the list of connections is taken as an argument), map the
topology key of its atom indices to a potential key joining the atoms'
type ids with `POTENTIAL_KEY_SEPARATOR`. -/
def FoyerConnectedAtomsHandler.store_matches
    (atom_slots : PyDict TopologyKey PotentialKey)
    (connections : List Connection)
    (slot_map : PyDict TopologyKey PotentialKey) :
    PyDict TopologyKey PotentialKey × Option Err :=
  connMatchesGo atom_slots connections slot_map

/-- The concrete connected-atoms handler classes; each fixes `type`,
`connection_attribute`, `raise_on_missing_params` and
`get_params_with_units`. -/
inductive BondedKind where
  | harmonicBond
  | harmonicAngle
  | rbProper
  | rbImproper
  | periodicProper
  | periodicImproper
deriving DecidableEq

/-- The `type` field of each connected-atoms handler class. -/
def BondedKind.type : BondedKind → String
  | .harmonicBond => "harmonic_bonds"
  | .harmonicAngle => "harmonic_angles"
  | .rbProper => "rb_propers"
  | .rbImproper => "rb_impropers"
  | .periodicProper => "periodic_propers"
  | .periodicImproper => "periodic_impropers"

/-- The `connection_attribute` field of each connected-atoms handler class. -/
def BondedKind.connection_attribute : BondedKind → String
  | .harmonicBond => "topology_bonds"
  | .harmonicAngle => "angles"
  | .rbProper => "propers"
  | .rbImproper => "impropers"
  | .periodicProper => "propers"
  | .periodicImproper => "impropers"

/-- `raise_on_missing_params`: `True` from the base class for the harmonic
bond and angle handlers, overridden to `False` in `FoyerRBProperHandler` and
`FoyerPeriodicProperHandler` and inherited by their improper subclasses. -/
def BondedKind.raise_on_missing_params : BondedKind → Bool
  | .harmonicBond => true
  | .harmonicAngle => true
  | .rbProper => false
  | .rbImproper => false
  | .periodicProper => false
  | .periodicImproper => false

/-- `{k.upper(): v for k, v in params.items()}` from
`FoyerRBProperHandler.get_params_with_units`. -/
def rbUpper (params : ParamsDict) : ParamsDict :=
  params.foldl (fun d kv => dinsert d kv.1.toUpper kv.2) []

/-- `get_params_with_units` of each connected-atoms handler class. -/
def BondedKind.get_params_with_units : BondedKind → ParamsDict → Except Err ParamsDict
  | .harmonicBond, params =>
    copy_params params []
      [("k", .kJ_per_mol_per_nm2), ("length", .nm)]
  | .harmonicAngle, params =>
    match dget params "k", dget params "theta" with
    | some kv, some th =>
      copy_params [("k", kv), ("angle", th)] []
        [("k", .kJ_per_mol_per_rad2), ("angle", .dimensionless)]
    | _, _ => .error .keyError
  | .rbProper, params =>
    copy_params (rbUpper params) []
      ((rbUpper params).map (fun kv => (kv.1, UnitE.kJ_per_mol)))
  | .rbImproper, params =>
    copy_params (rbUpper params) []
      ((rbUpper params).map (fun kv => (kv.1, UnitE.kJ_per_mol)))
  | .periodicProper, params =>
    copy_params params []
      [("k", .kJ_per_mol_per_nm2), ("phase", .dimensionless),
       ("periodicity", .dimensionless)]
  | .periodicImproper, params =>
    copy_params params []
      [("k", .kJ_per_mol_per_nm2), ("phase", .dimensionless),
       ("periodicity", .dimensionless)]

/-- `pot_key.id.split(POTENTIAL_KEY_SEPARATOR)`. -/
def splitSep (s : String) : List String :=
  s.splitOn POTENTIAL_KEY_SEPARATOR

/-- The body of the `try` block of
`FoyerConnectedAtomsHandler.store_potentials` for one potential key:
fetch the parameters and apply `get_params_with_units`. -/
def stepResult (ff : Forcefield) (kind : BondedKind) (pk : PotentialKey) :
    Except Err ParamsDict :=
  match ff.get_parameters kind.type (splitSep pk.id) with
  | .error e => .error e
  | .ok params => kind.get_params_with_units params

/-- The mutable state of a connected-atoms handler. -/
structure HandlerState where
  slot_map : PyDict TopologyKey PotentialKey
  potentials : PyDict PotentialKey Potential
deriving DecidableEq

/-- The loop of `FoyerConnectedAtomsHandler.store_potentials`, instrumented
with the list of keys passed to `forcefield.get_parameters` (so that "no
further keys processed" is observable).  On `MissingForceError` the handler
empties `slot_map` and `potentials` and returns; on
`MissingParametersError` it re-raises when `raise_on_missing_params` is set
and otherwise skips the key; other exceptions propagate. -/
def connPotGo (ff : Forcefield) (kind : BondedKind) :
    List (TopologyKey × PotentialKey) → HandlerState →
    HandlerState × Option Err × List (List String)
  | [], st => (st, none, [])
  | (_, pk) :: rest, st =>
    match stepResult ff kind pk with
    | .ok p =>
      let out := connPotGo ff kind rest
        { st with potentials := dinsert st.potentials pk ⟨p⟩ }
      (out.1, out.2.1, splitSep pk.id :: out.2.2)
    | .error .missingForce => (⟨[], []⟩, none, [splitSep pk.id])
    | .error .missingParams =>
      if kind.raise_on_missing_params then
        (st, some .missingParams, [splitSep pk.id])
      else
        let out := connPotGo ff kind rest st
        (out.1, out.2.1, splitSep pk.id :: out.2.2)
    | .error e => (st, some e, [splitSep pk.id])

/-- `FoyerConnectedAtomsHandler.store_potentials`. -/
def FoyerConnectedAtomsHandler.store_potentials (ff : Forcefield)
    (kind : BondedKind) (st : HandlerState) :
    HandlerState × Option Err × List (List String) :=
  connPotGo ff kind st.slot_map st

/-!
A heap model for `_copy_params`, making object identity explicit: the heap
is a list of dictionaries and an address is an index into it.  `copy(params)`
allocates a fresh address holding the same entries; `pop` and item
assignment mutate only the dictionary at the copy's address.
-/

/-- The heap of parameter dictionaries; an address is an index. -/
abbrev Heap := List ParamsDict

/-- The dictionary stored at address `a`. -/
def hget (h : Heap) (a : Nat) : ParamsDict := h.getD a []

/-- The unit-tagging loop of `_copy_params`, mutating the dictionary at
address `c` one entry at a time. -/
def unitLoopHeap (c : Nat) : List (String × UnitE) → Heap → Heap × Option Err
  | [], h => (h, none)
  | (k, u) :: rest, h =>
    match dget (hget h c) k with
    | none => (h, some .keyError)
    | some v => unitLoopHeap c rest (h.set c (dinsert (hget h c) k (.mul v u)))

/-- `_copy_params` on the heap: `params_copy = copy(params)` allocates a new
address, the drop keys are popped from the copy, and the unit loop mutates
the copy; the copy's address is returned (with the exception, if any). -/
def copy_params_heap (h : Heap) (params : Nat) (drop_keys : List String)
    (param_units : List (String × UnitE)) : Heap × Nat × Option Err :=
  let params_copy := h.length
  let h1 := h ++ [hget h params]
  let h2 := h1.set params_copy
    (drop_keys.foldl (fun d k => dpop d k) (hget h1 params_copy))
  let out := unitLoopHeap params_copy param_units h2
  (out.1, params_copy, out.2)

/-!
Instance model: the `PotentialHandler` base class (defined outside this
module) holds the mutable caches.  Modelled from the spec: "no shared
mutable resources beyond per-instance caches" — each handler instance owns
its `slot_map`, `potentials` and `charges` dictionaries, so a collection of
live handler instances is a list of independent states and a store
operation rewrites exactly one entry of that list.
-/

/-- Modelled from the spec: the per-instance mutable caches of one handler
instance (`slot_map`, `potentials`, `charges`); the base class holding them
is outside this module. -/
structure InstanceState where
  slot_map : PyDict TopologyKey PotentialKey
  potentials : PyDict PotentialKey Potential
  charges : PyDict TopologyKey PVal
deriving DecidableEq

instance : Inhabited InstanceState := ⟨⟨[], [], []⟩⟩

/-- One of the mutating store operations of this module, together with its
arguments. -/
inductive StoreOp where
  | vdwMatches (type_map : List (Nat × AtomTypeInfo))
  | vdwPotentials (ff : Forcefield)
  | electroCharges (atom_slots : PyDict TopologyKey PotentialKey) (ff : Forcefield)
  | connMatches (atom_slots : PyDict TopologyKey PotentialKey)
      (connections : List Connection)
  | connPotentials (ff : Forcefield) (kind : BondedKind)

/-- Apply a store operation to one instance's caches (exceptions leave the
partially mutated state behind, as in Python). -/
def applyStoreOp : StoreOp → InstanceState → InstanceState
  | .vdwMatches tm, s =>
    { s with slot_map := FoyerVDWHandler.store_matches tm s.slot_map }
  | .vdwPotentials ff, s =>
    { s with potentials :=
        (FoyerVDWHandler.store_potentials ff s.slot_map s.potentials).1 }
  | .electroCharges atom_slots ff, s =>
    { s with charges :=
        (FoyerElectrostaticsHandler.store_charges atom_slots ff s.charges).1 }
  | .connMatches atom_slots conns, s =>
    { s with slot_map :=
        (FoyerConnectedAtomsHandler.store_matches atom_slots conns s.slot_map).1 }
  | .connPotentials ff kind, s =>
    let out := FoyerConnectedAtomsHandler.store_potentials ff kind
      ⟨s.slot_map, s.potentials⟩
    { s with slot_map := out.1.slot_map, potentials := out.1.potentials }

/-- Modelled from the spec: running a store operation on instance `i` of a
collection of live handler instances rewrites only that instance's state. -/
def updateInstance (insts : List InstanceState) (i : Nat) (op : StoreOp) :
    List InstanceState :=
  insts.set i (applyStoreOp op (insts.getD i default))

/-!  Derived value functions and run decomposition helpers (specification
side, used to state and prove properties of the store loops).  -/

/-- The potential key that `FoyerConnectedAtomsHandler.store_matches` builds
for one connection, when all of its atoms are present in `atom_slots`. -/
def connVal (atom_slots : PyDict TopologyKey PotentialKey) (conn : Connection) :
    Option PotentialKey :=
  match potKeyIds atom_slots conn with
  | .ok ids => some ⟨String.intercalate POTENTIAL_KEY_SEPARATOR ids⟩
  | .error _ => none

/-- The potential that `FoyerVDWHandler.store_potentials` stores for one
potential key, when the engine lookup and the parameter copy succeed. -/
def vdwVal (ff : Forcefield) (pk : PotentialKey) : Option Potential :=
  match ff.get_parameters FoyerVDWHandler.type [pk.id] with
  | .error _ => none
  | .ok d =>
    match copy_params d ["charge"] [("epsilon", .kJ_per_mol), ("sigma", .nm)] with
    | .error _ => none
    | .ok p => some ⟨p⟩

/-- The key list a slot-map entry sends to `forcefield.get_parameters`. -/
def traceKey (p : TopologyKey × PotentialKey) : List String :=
  splitSep p.2.id

/-- Whether one entry of the slot map is processed without stopping the
`store_potentials` loop: either the `try` body succeeds, or it raises
`MissingParametersError` and the handler is configured to skip it. -/
def okOrSkipB (ff : Forcefield) (kind : BondedKind)
    (p : TopologyKey × PotentialKey) : Bool :=
  match stepResult ff kind p.2 with
  | .ok _ => true
  | .error .missingParams => !kind.raise_on_missing_params
  | .error _ => false

/-- The `potentials` dictionary after a run of the `store_potentials` loop
over `l`: every entry whose `try` body succeeds is stored, the others are
skipped. -/
def processedPots (ff : Forcefield) (kind : BondedKind) :
    List (TopologyKey × PotentialKey) → PyDict PotentialKey Potential →
    PyDict PotentialKey Potential
  | [], pots => pots
  | p :: rest, pots =>
    match stepResult ff kind p.2 with
    | .ok d => processedPots ff kind rest (dinsert pots p.2 ⟨d⟩)
    | .error _ => processedPots ff kind rest pots

/-!  Concrete inputs used by the witness theorems.  -/

/-- A force field whose every lookup raises `MissingForceError`. -/
def ffMF : Forcefield := ⟨fun _ _ => .error .missingForce⟩

/-- A force field whose every lookup raises `MissingParametersError`. -/
def ffMP : Forcefield := ⟨fun _ _ => .error .missingParams⟩

/-- A force field returning one fixed atom-parameter dictionary. -/
def ffAtoms : Forcefield :=
  ⟨fun _ _ => .ok [("charge", .raw 1), ("epsilon", .raw 2), ("sigma", .raw 3)]⟩

/-!  Dictionary lemmas.  -/

theorem dget_eq_none_of_not_mem {K V : Type} [DecidableEq K]
    (d : PyDict K V) (k : K) (h : k ∉ d.map Prod.fst) : dget d k = none := by
  induction d with
  | nil => rfl
  | cons hd tl ih =>
    obtain ⟨k1, v1⟩ := hd
    simp only [List.map_cons, List.mem_cons, not_or] at h
    simp only [dget, if_neg (fun hh : k1 = k => h.1 hh.symm), ih h.2]

theorem dget_dinsert_self {K V : Type} [DecidableEq K]
    (d : PyDict K V) (k : K) (v : V) : dget (dinsert d k v) k = some v := by
  induction d with
  | nil => simp [dinsert, dget]
  | cons hd tl ih =>
    obtain ⟨k1, v1⟩ := hd
    by_cases h : k1 = k
    · simp [dinsert, dget, h]
    · simp [dinsert, dget, h, ih]

theorem dget_dinsert_ne {K V : Type} [DecidableEq K]
    (d : PyDict K V) (k k' : K) (v : V) (h : k' ≠ k) :
    dget (dinsert d k v) k' = dget d k' := by
  induction d with
  | nil => simp [dinsert, dget, Ne.symm h]
  | cons hd tl ih =>
    obtain ⟨k1, v1⟩ := hd
    by_cases hh : k1 = k
    · subst hh
      simp [dinsert, dget, if_neg (Ne.symm h)]
    · simp only [dinsert, if_neg hh, dget, ih]

theorem dinsert_eq_of_dget {K V : Type} [DecidableEq K]
    (d : PyDict K V) (k : K) (v : V) (h : dget d k = some v) :
    dinsert d k v = d := by
  induction d with
  | nil => simp [dget] at h
  | cons hd tl ih =>
    obtain ⟨k1, v1⟩ := hd
    by_cases hh : k1 = k
    · subst hh
      simp only [dget, if_pos rfl, if_true, Option.some.injEq] at h
      subst h
      simp [dinsert]
    · simp only [dget, if_neg hh] at h
      simp [dinsert, hh, ih h]

theorem dget_dpop_ne {K V : Type} [DecidableEq K]
    (d : PyDict K V) (k k' : K) (h : k' ≠ k) :
    dget (dpop d k) k' = dget d k' := by
  induction d with
  | nil => rfl
  | cons hd tl ih =>
    obtain ⟨k1, v1⟩ := hd
    by_cases hh : k1 = k
    · subst hh
      simp [dpop, dget, if_neg (Ne.symm h)]
    · simp only [dpop, if_neg hh, dget, ih]

theorem dget_dpop_self {K V : Type} [DecidableEq K]
    (d : PyDict K V) (k : K) (hnd : (d.map Prod.fst).Nodup) :
    dget (dpop d k) k = none := by
  induction d with
  | nil => rfl
  | cons hd tl ih =>
    obtain ⟨k1, v1⟩ := hd
    simp only [List.map_cons, List.nodup_cons] at hnd
    by_cases hh : k1 = k
    · subst hh
      simp only [dpop, if_pos rfl]
      exact dget_eq_none_of_not_mem tl k1 hnd.1
    · simp only [dpop, if_neg hh, dget, if_neg hh]
      exact ih hnd.2

theorem dget_isSome_dinsert {K V : Type} [DecidableEq K]
    (d : PyDict K V) (k k' : K) (v : V) (h : (dget d k).isSome) :
    (dget (dinsert d k v) k').isSome = (dget d k').isSome := by
  by_cases hh : k' = k
  · subst hh
    simp [dget_dinsert_self, h]
  · rw [dget_dinsert_ne d k k' v hh]

/-!  `FoyerVDWHandler.store_matches` (claim C3).  -/

theorem vdw_matches_frame (type_map : List (Nat × AtomTypeInfo)) :
    ∀ (sm : PyDict TopologyKey PotentialKey) (tk : TopologyKey),
    tk ∉ type_map.map (fun kv => TopologyKey.mk [kv.1]) →
    dget (FoyerVDWHandler.store_matches type_map sm) tk = dget sm tk := by
  induction type_map with
  | nil => intro sm tk _; rfl
  | cons hd tl ih =>
    intro sm tk h
    simp only [List.map_cons, List.mem_cons, not_or] at h
    simp only [FoyerVDWHandler.store_matches]
    rw [ih _ _ h.2, dget_dinsert_ne _ _ _ _ h.1]

theorem vdw_matches_mem (type_map : List (Nat × AtomTypeInfo)) :
    ∀ (sm : PyDict TopologyKey PotentialKey) (kv : Nat × AtomTypeInfo),
    (type_map.map Prod.fst).Nodup → kv ∈ type_map →
    dget (FoyerVDWHandler.store_matches type_map sm) ⟨[kv.1]⟩ =
      some ⟨kv.2.atomtype⟩ := by
  induction type_map with
  | nil => intro sm kv _ hkv; exact absurd hkv (List.not_mem_nil kv)
  | cons hd tl ih =>
    intro sm kv hnd hkv
    simp only [List.map_cons, List.nodup_cons] at hnd
    simp only [FoyerVDWHandler.store_matches]
    rcases List.mem_cons.mp hkv with heq | hmem
    · subst heq
      have hnot : (⟨[kv.1]⟩ : TopologyKey) ∉
          tl.map (fun p => TopologyKey.mk [p.1]) := by
        intro hmem'
        obtain ⟨kv', hkv', hEq⟩ := List.mem_map.mp hmem'
        apply hnd.1
        have : kv'.1 = kv.1 := by
          have := congrArg TopologyKey.atom_indices hEq
          simpa using this
        rw [← this]
        exact List.mem_map.mpr ⟨kv', hkv', rfl⟩
      rw [vdw_matches_frame tl _ _ hnot, dget_dinsert_self]
    · exact ih _ kv hnd.2 hmem

/-- Claim C3: after `FoyerVDWHandler.store_matches(forcefield, topology)`,
every entry `(atom_index, value)` of the type map returned by the engine is
reflected in `slot_map` as the one-atom topology key `(atom_index,)` mapped
to a potential key whose id is `value["atomtype"]`, and no other key of
`slot_map` is added or changed. -/
theorem claim_C3 (type_map : List (Nat × AtomTypeInfo))
    (sm : PyDict TopologyKey PotentialKey)
    (hnd : (type_map.map Prod.fst).Nodup) :
    (∀ kv ∈ type_map,
      dget (FoyerVDWHandler.store_matches type_map sm) ⟨[kv.1]⟩ =
        some ⟨kv.2.atomtype⟩) ∧
    (∀ tk : TopologyKey,
      tk ∉ type_map.map (fun kv => TopologyKey.mk [kv.1]) →
      dget (FoyerVDWHandler.store_matches type_map sm) tk = dget sm tk) :=
  ⟨fun kv hkv => vdw_matches_mem type_map sm kv hnd hkv,
   fun tk htk => vdw_matches_frame type_map sm tk htk⟩

/-- Witness for claim C3 at a concrete two-atom type map. -/
theorem claim_C3_witness :
    (∀ kv ∈ [(0, AtomTypeInfo.mk "opls_135"), (1, AtomTypeInfo.mk "opls_140")],
      dget (FoyerVDWHandler.store_matches
          [(0, AtomTypeInfo.mk "opls_135"), (1, AtomTypeInfo.mk "opls_140")] [])
        ⟨[kv.1]⟩ = some ⟨kv.2.atomtype⟩) ∧
    (∀ tk : TopologyKey,
      tk ∉ [(0, AtomTypeInfo.mk "opls_135"),
            (1, AtomTypeInfo.mk "opls_140")].map (fun kv => TopologyKey.mk [kv.1]) →
      dget (FoyerVDWHandler.store_matches
          [(0, AtomTypeInfo.mk "opls_135"), (1, AtomTypeInfo.mk "opls_140")] []) tk =
        dget [] tk) :=
  claim_C3 [(0, AtomTypeInfo.mk "opls_135"), (1, AtomTypeInfo.mk "opls_140")] []
    (by decide)

/-!  `FoyerConnectedAtomsHandler.store_matches` (claims C4 and C9).  -/

theorem potKeyIds_ok (atom_slots : PyDict TopologyKey PotentialKey) :
    ∀ conn : Connection,
    (∀ idx ∈ conn, (dget atom_slots ⟨[idx]⟩).isSome) →
    ∃ ids, potKeyIds atom_slots conn = .ok ids ∧
      List.Forall₂
        (fun idx pid => ∃ pk, dget atom_slots ⟨[idx]⟩ = some pk ∧
          PotentialKey.id pk = pid)
        conn ids := by
  intro conn
  induction conn with
  | nil => intro _; exact ⟨[], rfl, List.Forall₂.nil⟩
  | cons idx rest ih =>
    intro h
    have hidx := h idx (List.mem_cons_self idx rest)
    obtain ⟨pk, hpk⟩ := Option.isSome_iff_exists.mp hidx
    obtain ⟨ids, hids, hfa⟩ := ih (fun i hi => h i (List.mem_cons_of_mem idx hi))
    refine ⟨pk.id :: ids, ?_, List.Forall₂.cons ⟨pk, hpk, rfl⟩ hfa⟩
    simp only [potKeyIds, get_potential_key_id, hpk, hids]
    rfl

theorem potKeyIds_missing (atom_slots : PyDict TopologyKey PotentialKey) :
    ∀ conn : Connection,
    (∃ idx ∈ conn, dget atom_slots ⟨[idx]⟩ = none) →
    potKeyIds atom_slots conn = .error .keyError := by
  intro conn
  induction conn with
  | nil => rintro ⟨idx, hidx, _⟩; exact absurd hidx (List.not_mem_nil idx)
  | cons i rest ih =>
    rintro ⟨idx, hidx, hnone⟩
    rcases List.mem_cons.mp hidx with heq | hmem
    · subst heq
      simp only [potKeyIds, get_potential_key_id, hnone]
      rfl
    · cases hi : dget atom_slots ⟨[i]⟩ with
      | none => simp only [potKeyIds, get_potential_key_id, hi]; rfl
      | some pk =>
        have := ih ⟨idx, hmem, hnone⟩
        simp only [potKeyIds, get_potential_key_id, hi, this]
        rfl

theorem connMatchesGo_inv (atom_slots : PyDict TopologyKey PotentialKey)
    (conns : List Connection) :
    ∀ (sm : PyDict TopologyKey PotentialKey) (conn : Connection)
      (pk : PotentialKey),
    connVal atom_slots conn = some pk → dget sm ⟨conn⟩ = some pk →
    dget (connMatchesGo atom_slots conns sm).1 ⟨conn⟩ = some pk := by
  induction conns with
  | nil => intro sm conn pk _ hin; exact hin
  | cons c rest ih =>
    intro sm conn pk hval hin
    cases hc : potKeyIds atom_slots c with
    | error e => simp only [connMatchesGo, hc]; exact hin
    | ok ids =>
      simp only [connMatchesGo, hc]
      apply ih _ conn pk hval
      by_cases hck : (⟨c⟩ : TopologyKey) = ⟨conn⟩
      · have hcc : c = conn := by
          have := congrArg TopologyKey.atom_indices hck
          simpa using this
        subst hcc
        rw [hck]
        rw [dget_dinsert_self]
        unfold connVal at hval
        rw [hc] at hval
        exact hval.symm ▸ rfl
      · rw [dget_dinsert_ne _ _ _ _ (fun hh => hck hh.symm)]
        exact hin

theorem connMatchesGo_mem (atom_slots : PyDict TopologyKey PotentialKey)
    (conns : List Connection) :
    ∀ (sm : PyDict TopologyKey PotentialKey) (conn : Connection),
    conn ∈ conns →
    (∀ c ∈ conns, ∀ idx ∈ c, (dget atom_slots ⟨[idx]⟩).isSome) →
    ∃ ids, potKeyIds atom_slots conn = .ok ids ∧
      dget (connMatchesGo atom_slots conns sm).1 ⟨conn⟩ =
        some ⟨String.intercalate POTENTIAL_KEY_SEPARATOR ids⟩ := by
  induction conns with
  | nil => intro sm conn hmem _; exact absurd hmem (List.not_mem_nil conn)
  | cons c rest ih =>
    intro sm conn hmem hpre
    have hc := hpre c (List.mem_cons_self c rest)
    obtain ⟨ids_c, hids_c, _⟩ := potKeyIds_ok atom_slots c hc
    rcases List.mem_cons.mp hmem with heq | hmem'
    · subst heq
      refine ⟨ids_c, hids_c, ?_⟩
      simp only [connMatchesGo, hids_c]
      apply connMatchesGo_inv atom_slots rest _ conn _
      · unfold connVal; rw [hids_c]
      · exact dget_dinsert_self _ _ _
    · obtain ⟨ids, hids, hlook⟩ :=
        ih (dinsert sm ⟨c⟩ ⟨String.intercalate POTENTIAL_KEY_SEPARATOR ids_c⟩)
          conn hmem' (fun c' hc' => hpre c' (List.mem_cons_of_mem c hc'))
      refine ⟨ids, hids, ?_⟩
      simpa only [connMatchesGo, hids_c] using hlook

theorem connMatchesGo_err_none (atom_slots : PyDict TopologyKey PotentialKey)
    (conns : List Connection) :
    ∀ sm : PyDict TopologyKey PotentialKey,
    (∀ c ∈ conns, ∀ idx ∈ c, (dget atom_slots ⟨[idx]⟩).isSome) →
    (connMatchesGo atom_slots conns sm).2 = none := by
  induction conns with
  | nil => intro sm _; rfl
  | cons c rest ih =>
    intro sm hpre
    obtain ⟨ids_c, hids_c, _⟩ :=
      potKeyIds_ok atom_slots c (hpre c (List.mem_cons_self c rest))
    simp only [connMatchesGo, hids_c]
    exact ih _ (fun c' hc' => hpre c' (List.mem_cons_of_mem c hc'))

theorem potKeyIds_cases (atom_slots : PyDict TopologyKey PotentialKey)
    (conn : Connection) :
    potKeyIds atom_slots conn = .error .keyError ∨
    ∃ ids, potKeyIds atom_slots conn = .ok ids := by
  induction conn with
  | nil => exact Or.inr ⟨[], rfl⟩
  | cons j rest ihj =>
    simp only [potKeyIds, get_potential_key_id]
    cases dget atom_slots ⟨[j]⟩ with
    | none => exact Or.inl rfl
    | some pk =>
      rcases ihj with hl | ⟨ids, hr⟩
      · rw [hl]; exact Or.inl rfl
      · rw [hr]; exact Or.inr ⟨pk.id :: ids, rfl⟩

theorem connMatchesGo_err_key (atom_slots : PyDict TopologyKey PotentialKey)
    (conns : List Connection) :
    ∀ sm : PyDict TopologyKey PotentialKey,
    (∃ c ∈ conns, ∃ idx ∈ c, dget atom_slots ⟨[idx]⟩ = none) →
    (connMatchesGo atom_slots conns sm).2 = some .keyError := by
  induction conns with
  | nil => rintro sm ⟨c, hc, _⟩; exact absurd hc (List.not_mem_nil c)
  | cons c0 rest ih =>
    rintro sm ⟨c, hc, idx, hidx, hnone⟩
    rcases List.mem_cons.mp hc with heq | hmem
    · subst heq
      have hmiss := potKeyIds_missing atom_slots c ⟨idx, hidx, hnone⟩
      simp only [connMatchesGo, hmiss]
    · rcases potKeyIds_cases atom_slots c0 with hl | ⟨ids, hr⟩
      · simp only [connMatchesGo, hl]
      · simp only [connMatchesGo, hr]
        exact ih _ ⟨c, hmem, idx, hidx, hnone⟩

/-- Claim C4: after `FoyerConnectedAtomsHandler.store_matches(atom_slots,
topology)`, every connection read from the topology is mapped in `slot_map`
(under the topology key of its atom indices, in order) to a potential key
whose id joins with `"-"` the ids that `atom_slots` assigns to those atom
indices, in the same order. -/
theorem claim_C4 (atom_slots : PyDict TopologyKey PotentialKey)
    (conns : List Connection) (sm : PyDict TopologyKey PotentialKey)
    (hpre : ∀ c ∈ conns, ∀ idx ∈ c, (dget atom_slots ⟨[idx]⟩).isSome) :
    (FoyerConnectedAtomsHandler.store_matches atom_slots conns sm).2 = none ∧
    ∀ conn ∈ conns, ∃ ids,
      List.Forall₂
        (fun idx pid => ∃ pk, dget atom_slots ⟨[idx]⟩ = some pk ∧
          PotentialKey.id pk = pid)
        conn ids ∧
      dget (FoyerConnectedAtomsHandler.store_matches atom_slots conns sm).1
          ⟨conn⟩ =
        some ⟨String.intercalate POTENTIAL_KEY_SEPARATOR ids⟩ := by
  constructor
  · exact connMatchesGo_err_none atom_slots conns sm hpre
  · intro conn hconn
    obtain ⟨ids, hids, hlook⟩ :=
      connMatchesGo_mem atom_slots conns sm conn hconn hpre
    obtain ⟨ids', hids', hfa⟩ :=
      potKeyIds_ok atom_slots conn (hpre conn hconn)
    rw [hids] at hids'
    cases hids'
    exact ⟨ids, hfa, hlook⟩

/-- Witness for claim C4: one bond between two typed atoms. -/
theorem claim_C4_witness :
    (FoyerConnectedAtomsHandler.store_matches
      [(⟨[0]⟩, ⟨"opls_135"⟩), (⟨[1]⟩, ⟨"opls_140"⟩)] [[0, 1]] []).2 = none ∧
    ∀ conn ∈ [[0, 1]], ∃ ids,
      List.Forall₂
        (fun idx pid => ∃ pk,
          dget [((⟨[0]⟩ : TopologyKey), (⟨"opls_135"⟩ : PotentialKey)),
                (⟨[1]⟩, ⟨"opls_140"⟩)] ⟨[idx]⟩ = some pk ∧
          PotentialKey.id pk = pid)
        conn ids ∧
      dget (FoyerConnectedAtomsHandler.store_matches
          [(⟨[0]⟩, ⟨"opls_135"⟩), (⟨[1]⟩, ⟨"opls_140"⟩)] [[0, 1]] []).1
          ⟨conn⟩ =
        some ⟨String.intercalate POTENTIAL_KEY_SEPARATOR ids⟩ :=
  claim_C4 [(⟨[0]⟩, ⟨"opls_135"⟩), (⟨[1]⟩, ⟨"opls_140"⟩)] [[0, 1]] []
    (by decide)

/-- Claim C9: `FoyerConnectedAtomsHandler.store_matches` completes without
error exactly when every atom index occurring in a connection has a
one-atom entry in `atom_slots`; when some index has none, the lookup in
`_get_potential_key_id` fails with a `KeyError`. -/
theorem claim_C9 (atom_slots : PyDict TopologyKey PotentialKey)
    (conns : List Connection) (sm : PyDict TopologyKey PotentialKey) :
    ((FoyerConnectedAtomsHandler.store_matches atom_slots conns sm).2 = none ↔
      ∀ c ∈ conns, ∀ idx ∈ c, (dget atom_slots ⟨[idx]⟩).isSome) ∧
    ((∃ c ∈ conns, ∃ idx ∈ c, dget atom_slots ⟨[idx]⟩ = none) →
      (FoyerConnectedAtomsHandler.store_matches atom_slots conns sm).2 =
        some .keyError) := by
  constructor
  · constructor
    · intro hnone
      by_contra hnot
      push_neg at hnot
      obtain ⟨c, hc, idx, hidx, hbad⟩ := hnot
      have : dget atom_slots ⟨[idx]⟩ = none :=
        Option.not_isSome_iff_eq_none.mp hbad
      have hkey := connMatchesGo_err_key atom_slots conns sm ⟨c, hc, idx, hidx, this⟩
      have hnone' : (connMatchesGo atom_slots conns sm).2 = none := hnone
      rw [hnone'] at hkey
      cases hkey
    · exact fun hpre => connMatchesGo_err_none atom_slots conns sm hpre
  · exact fun hmiss => connMatchesGo_err_key atom_slots conns sm hmiss

/-!  `_copy_params` and `FoyerVDWHandler.store_potentials` (claim C5).  -/

theorem unitLoop_cons_some (k : String) (u : UnitE) (rest : List (String × UnitE))
    (d : ParamsDict) (v : PVal) (h : dget d k = some v) :
    unitLoop ((k, u) :: rest) d = unitLoop rest (dinsert d k (.mul v u)) := by
  simp only [unitLoop, h]

theorem copy_params_vdw_char (d : ParamsDict)
    (hnd : (d.map Prod.fst).Nodup)
    (he : (dget d "epsilon").isSome) (hs : (dget d "sigma").isSome) :
    ∃ d', copy_params d ["charge"]
        [("epsilon", .kJ_per_mol), ("sigma", .nm)] = .ok d' ∧
      dget d' "charge" = none ∧
      dget d' "epsilon" = (dget d "epsilon").map (fun v => PVal.mul v .kJ_per_mol) ∧
      dget d' "sigma" = (dget d "sigma").map (fun v => PVal.mul v .nm) ∧
      ∀ k, k ≠ "charge" → k ≠ "epsilon" → k ≠ "sigma" → dget d' k = dget d k := by
  obtain ⟨ve, hve⟩ := Option.isSome_iff_exists.mp he
  obtain ⟨vs, hvs⟩ := Option.isSome_iff_exists.mp hs
  have h0e : dget (dpop d "charge") "epsilon" = some ve := by
    rw [dget_dpop_ne _ _ _ (by decide)]; exact hve
  have h0s : dget (dpop d "charge") "sigma" = some vs := by
    rw [dget_dpop_ne _ _ _ (by decide)]; exact hvs
  have h0c : dget (dpop d "charge") "charge" = none := dget_dpop_self d _ hnd
  have h1s : dget (dinsert (dpop d "charge") "epsilon" (.mul ve .kJ_per_mol))
      "sigma" = some vs := by
    rw [dget_dinsert_ne _ _ _ _ (by decide)]; exact h0s
  refine ⟨dinsert (dinsert (dpop d "charge") "epsilon" (.mul ve .kJ_per_mol))
      "sigma" (.mul vs .nm), ?_, ?_, ?_, ?_, ?_⟩
  · show unitLoop [("epsilon", UnitE.kJ_per_mol), ("sigma", UnitE.nm)]
        (dpop d "charge") = _
    rw [unitLoop_cons_some _ _ _ _ _ h0e, unitLoop_cons_some _ _ _ _ _ h1s]
    rfl
  · rw [dget_dinsert_ne _ _ _ _ (by decide), dget_dinsert_ne _ _ _ _ (by decide)]
    exact h0c
  · rw [dget_dinsert_ne _ _ _ _ (by decide), dget_dinsert_self, hve]
    rfl
  · rw [dget_dinsert_self, hvs]
    rfl
  · intro k hkc hke hks
    rw [dget_dinsert_ne _ _ _ _ hks, dget_dinsert_ne _ _ _ _ hke,
      dget_dpop_ne _ _ _ hkc]

theorem vdwPotGo_inv (ff : Forcefield) (l : List (TopologyKey × PotentialKey)) :
    ∀ (pots : PyDict PotentialKey Potential) (pk : PotentialKey) (v : Potential),
    vdwVal ff pk = some v → dget pots pk = some v →
    dget (vdwPotGo ff l pots).1 pk = some v := by
  induction l with
  | nil => intro pots pk v _ hin; exact hin
  | cons p rest ih =>
    intro pots pk v hval hin
    obtain ⟨tk0, pk0⟩ := p
    cases hff : ff.get_parameters FoyerVDWHandler.type [pk0.id] with
    | error e => simp only [vdwPotGo, hff]; exact hin
    | ok dd =>
      cases hcp : copy_params dd ["charge"]
          [("epsilon", .kJ_per_mol), ("sigma", .nm)] with
      | error e => simp only [vdwPotGo, hff, hcp]; exact hin
      | ok pp =>
        simp only [vdwPotGo, hff, hcp]
        apply ih _ pk v hval
        by_cases hpk : pk0 = pk
        · subst hpk
          simp only [vdwVal, hff, hcp] at hval
          rw [dget_dinsert_self]
          exact hval
        · rw [dget_dinsert_ne _ _ _ _ (fun hh => hpk hh.symm)]
          exact hin

theorem vdwPotGo_mem (ff : Forcefield) (l : List (TopologyKey × PotentialKey)) :
    ∀ (pots : PyDict PotentialKey Potential) (p : TopologyKey × PotentialKey),
    p ∈ l → (∀ q ∈ l, (vdwVal ff q.2).isSome) →
    dget (vdwPotGo ff l pots).1 p.2 = vdwVal ff p.2 := by
  induction l with
  | nil => intro pots p hp _; exact absurd hp (List.not_mem_nil p)
  | cons q0 rest ih =>
    intro pots p hp hsome
    obtain ⟨tk0, pk0⟩ := q0
    have h0 := hsome (tk0, pk0) (List.mem_cons_self _ rest)
    cases hff : ff.get_parameters FoyerVDWHandler.type [pk0.id] with
    | error e => simp only [vdwVal, hff, Option.isSome_none] at h0; cases h0
    | ok dd =>
      cases hcp : copy_params dd ["charge"]
          [("epsilon", .kJ_per_mol), ("sigma", .nm)] with
      | error e => simp only [vdwVal, hff, hcp, Option.isSome_none] at h0; cases h0
      | ok pp =>
        simp only [vdwPotGo, hff, hcp]
        rcases List.mem_cons.mp hp with heq | hmem
        · subst heq
          have hval : vdwVal ff pk0 = some ⟨pp⟩ := by
            simp only [vdwVal, hff, hcp]
          rw [hval]
          exact vdwPotGo_inv ff rest _ pk0 ⟨pp⟩ hval (dget_dinsert_self _ _ _)
        · exact ih _ p hmem (fun q hq => hsome q (List.mem_cons_of_mem _ hq))

theorem vdwPotGo_err_none (ff : Forcefield) (l : List (TopologyKey × PotentialKey)) :
    ∀ pots : PyDict PotentialKey Potential,
    (∀ q ∈ l, (vdwVal ff q.2).isSome) →
    (vdwPotGo ff l pots).2 = none := by
  induction l with
  | nil => intro pots _; rfl
  | cons q0 rest ih =>
    intro pots hsome
    obtain ⟨tk0, pk0⟩ := q0
    have h0 := hsome (tk0, pk0) (List.mem_cons_self _ rest)
    cases hff : ff.get_parameters FoyerVDWHandler.type [pk0.id] with
    | error e => simp only [vdwVal, hff, Option.isSome_none] at h0; cases h0
    | ok dd =>
      cases hcp : copy_params dd ["charge"]
          [("epsilon", .kJ_per_mol), ("sigma", .nm)] with
      | error e => simp only [vdwVal, hff, hcp, Option.isSome_none] at h0; cases h0
      | ok pp =>
        simp only [vdwPotGo, hff, hcp]
        exact ih _ (fun q hq => hsome q (List.mem_cons_of_mem _ hq))

/-- Claim C5: after `FoyerVDWHandler.store_potentials(forcefield)`, every
topology key of `slot_map` has, under its potential key, a `Potential`
whose parameters are the engine's atom parameters with `"charge"` removed,
`"epsilon"` multiplied by kJ/mol, `"sigma"` multiplied by nm, and every
other entry unchanged. -/
theorem claim_C5 (ff : Forcefield)
    (slot_map : PyDict TopologyKey PotentialKey)
    (pots : PyDict PotentialKey Potential)
    (hok : ∀ p ∈ slot_map, ∃ d,
      ff.get_parameters FoyerVDWHandler.type [p.2.id] = .ok d ∧
      (d.map Prod.fst).Nodup ∧
      (dget d "epsilon").isSome ∧ (dget d "sigma").isSome) :
    (FoyerVDWHandler.store_potentials ff slot_map pots).2 = none ∧
    ∀ p ∈ slot_map, ∃ d d',
      ff.get_parameters FoyerVDWHandler.type [p.2.id] = .ok d ∧
      dget (FoyerVDWHandler.store_potentials ff slot_map pots).1 p.2 =
        some ⟨d'⟩ ∧
      dget d' "charge" = none ∧
      dget d' "epsilon" = (dget d "epsilon").map (fun v => PVal.mul v .kJ_per_mol) ∧
      dget d' "sigma" = (dget d "sigma").map (fun v => PVal.mul v .nm) ∧
      ∀ k, k ≠ "charge" → k ≠ "epsilon" → k ≠ "sigma" → dget d' k = dget d k := by
  have hsome : ∀ q ∈ slot_map, (vdwVal ff q.2).isSome := by
    intro q hq
    obtain ⟨d, hge, hnd, he, hs⟩ := hok q hq
    obtain ⟨d', hcp, _⟩ := copy_params_vdw_char d hnd he hs
    simp only [vdwVal, hge, hcp, Option.isSome_some]
  refine ⟨vdwPotGo_err_none ff slot_map pots hsome, ?_⟩
  intro p hp
  obtain ⟨d, hge, hnd, he, hs⟩ := hok p hp
  obtain ⟨d', hcp, hc, hep, hsi, hot⟩ := copy_params_vdw_char d hnd he hs
  refine ⟨d, d', hge, ?_, hc, hep, hsi, hot⟩
  have hmem := vdwPotGo_mem ff slot_map pots p hp hsome
  have : vdwVal ff p.2 = some ⟨d'⟩ := by simp only [vdwVal, hge, hcp]
  rw [← this]
  exact hmem

/-- Witness for claim C5 on a one-atom slot map and a concrete engine. -/
theorem claim_C5_witness :
    (FoyerVDWHandler.store_potentials ffAtoms [(⟨[0]⟩, ⟨"opls_135"⟩)] []).2 =
      none ∧
    ∀ p ∈ [((⟨[0]⟩ : TopologyKey), (⟨"opls_135"⟩ : PotentialKey))], ∃ d d',
      ffAtoms.get_parameters FoyerVDWHandler.type [p.2.id] = .ok d ∧
      dget (FoyerVDWHandler.store_potentials ffAtoms
          [(⟨[0]⟩, ⟨"opls_135"⟩)] []).1 p.2 = some ⟨d'⟩ ∧
      dget d' "charge" = none ∧
      dget d' "epsilon" = (dget d "epsilon").map (fun v => PVal.mul v .kJ_per_mol) ∧
      dget d' "sigma" = (dget d "sigma").map (fun v => PVal.mul v .nm) ∧
      ∀ k, k ≠ "charge" → k ≠ "epsilon" → k ≠ "sigma" → dget d' k = dget d k :=
  claim_C5 ffAtoms [(⟨[0]⟩, ⟨"opls_135"⟩)] []
    (by
      intro p hp
      rcases List.mem_singleton.mp hp with rfl
      exact ⟨[("charge", .raw 1), ("epsilon", .raw 2), ("sigma", .raw 3)],
        rfl, by decide, by decide, by decide⟩)

/-!  `FoyerElectrostaticsHandler.store_charges` (claim C6).  -/

theorem chargesGo_frame (ff : Forcefield) (l : List (TopologyKey × PotentialKey)) :
    ∀ (ch : PyDict TopologyKey PVal) (tk : TopologyKey),
    tk ∉ l.map Prod.fst →
    dget (chargesGo ff l ch).1 tk = dget ch tk := by
  induction l with
  | nil => intro ch tk _; rfl
  | cons q0 rest ih =>
    intro ch tk htk
    obtain ⟨tk0, pk0⟩ := q0
    simp only [List.map_cons, List.mem_cons, not_or] at htk
    cases hff : ff.get_parameters "atoms" [pk0.id] with
    | error e => simp only [chargesGo, hff]
    | ok d =>
      cases hch : dget d "charge" with
      | none => simp only [chargesGo, hff, hch]
      | some c =>
        simp only [chargesGo, hff, hch]
        rw [ih _ tk htk.2, dget_dinsert_ne _ _ _ _ htk.1]

theorem chargesGo_mem (ff : Forcefield) (l : List (TopologyKey × PotentialKey)) :
    ∀ (ch : PyDict TopologyKey PVal) (p : TopologyKey × PotentialKey),
    p ∈ l → (l.map Prod.fst).Nodup →
    (∀ q ∈ l, ∃ d, ff.get_parameters "atoms" [q.2.id] = .ok d ∧
      (dget d "charge").isSome) →
    ∃ d c, ff.get_parameters "atoms" [p.2.id] = .ok d ∧
      dget d "charge" = some c ∧
      dget (chargesGo ff l ch).1 p.1 = some (.mul c .elementary_charge) := by
  induction l with
  | nil => intro ch p hp _ _; exact absurd hp (List.not_mem_nil p)
  | cons q0 rest ih =>
    intro ch p hp hnd hok
    obtain ⟨tk0, pk0⟩ := q0
    simp only [List.map_cons, List.nodup_cons] at hnd
    obtain ⟨d0, hff0, hc0⟩ := hok (tk0, pk0) (List.mem_cons_self _ rest)
    obtain ⟨c0, hc0'⟩ := Option.isSome_iff_exists.mp hc0
    simp only [chargesGo, hff0, hc0']
    rcases List.mem_cons.mp hp with heq | hmem
    · subst heq
      refine ⟨d0, c0, hff0, hc0', ?_⟩
      rw [chargesGo_frame ff rest _ tk0 hnd.1, dget_dinsert_self]
    · exact ih _ p hmem hnd.2
        (fun q hq => hok q (List.mem_cons_of_mem _ hq))

theorem chargesGo_err_none (ff : Forcefield)
    (l : List (TopologyKey × PotentialKey)) :
    ∀ ch : PyDict TopologyKey PVal,
    (∀ q ∈ l, ∃ d, ff.get_parameters "atoms" [q.2.id] = .ok d ∧
      (dget d "charge").isSome) →
    (chargesGo ff l ch).2 = none := by
  induction l with
  | nil => intro ch _; rfl
  | cons q0 rest ih =>
    intro ch hok
    obtain ⟨tk0, pk0⟩ := q0
    obtain ⟨d0, hff0, hc0⟩ := hok (tk0, pk0) (List.mem_cons_self _ rest)
    obtain ⟨c0, hc0'⟩ := Option.isSome_iff_exists.mp hc0
    simp only [chargesGo, hff0, hc0']
    exact ih _ (fun q hq => hok q (List.mem_cons_of_mem _ hq))

/-- Claim C6: after `FoyerElectrostaticsHandler.store_charges(atom_slots,
forcefield)`, every pair `(topology key, potential key)` of `atom_slots`
is reflected in `charges` as the topology key mapped to the engine's
`"charge"` value for that potential key's id, multiplied by the elementary
charge unit. -/
theorem claim_C6 (atom_slots : PyDict TopologyKey PotentialKey)
    (ff : Forcefield) (charges : PyDict TopologyKey PVal)
    (hnd : (atom_slots.map Prod.fst).Nodup)
    (hok : ∀ q ∈ atom_slots, ∃ d,
      ff.get_parameters "atoms" [q.2.id] = .ok d ∧ (dget d "charge").isSome) :
    (FoyerElectrostaticsHandler.store_charges atom_slots ff charges).2 = none ∧
    ∀ p ∈ atom_slots, ∃ d c,
      ff.get_parameters "atoms" [p.2.id] = .ok d ∧
      dget d "charge" = some c ∧
      dget (FoyerElectrostaticsHandler.store_charges atom_slots ff charges).1
          p.1 = some (.mul c .elementary_charge) :=
  ⟨chargesGo_err_none ff atom_slots charges hok,
   fun p hp => chargesGo_mem ff atom_slots charges p hp hnd hok⟩

/-- Witness for claim C6 on a one-atom slot map and a concrete engine. -/
theorem claim_C6_witness :
    (FoyerElectrostaticsHandler.store_charges
      [(⟨[0]⟩, ⟨"opls_135"⟩)] ffAtoms []).2 = none ∧
    ∀ p ∈ [((⟨[0]⟩ : TopologyKey), (⟨"opls_135"⟩ : PotentialKey))], ∃ d c,
      ffAtoms.get_parameters "atoms" [p.2.id] = .ok d ∧
      dget d "charge" = some c ∧
      dget (FoyerElectrostaticsHandler.store_charges
          [(⟨[0]⟩, ⟨"opls_135"⟩)] ffAtoms []).1 p.1 =
        some (.mul c .elementary_charge) :=
  claim_C6 [(⟨[0]⟩, ⟨"opls_135"⟩)] ffAtoms [] (by decide)
    (by
      intro q hq
      rcases List.mem_singleton.mp hq with rfl
      exact ⟨[("charge", .raw 1), ("epsilon", .raw 2), ("sigma", .raw 3)],
        rfl, by decide⟩)

/-!  Heap lemmas and `_copy_params` on the heap (claim C10).  -/

theorem hget_append_lt (h : Heap) (d : ParamsDict) :
    ∀ a : Nat, a < h.length → hget (h ++ [d]) a = hget h a := by
  induction h with
  | nil => intro a ha; cases ha
  | cons x xs ih =>
    intro a ha
    cases a with
    | zero => rfl
    | succ a' => exact ih a' (Nat.lt_of_succ_lt_succ ha)

theorem hget_append_last (h : Heap) (d : ParamsDict) :
    hget (h ++ [d]) h.length = d := by
  induction h with
  | nil => rfl
  | cons x xs ih => exact ih

theorem hget_set_self (h : Heap) :
    ∀ (c : Nat) (d : ParamsDict), c < h.length → hget (h.set c d) c = d := by
  induction h with
  | nil => intro c d hc; cases hc
  | cons x xs ih =>
    intro c d hc
    cases c with
    | zero => rfl
    | succ c' => exact ih c' d (Nat.lt_of_succ_lt_succ hc)

theorem hget_set_ne (h : Heap) :
    ∀ (c b : Nat) (d : ParamsDict), b ≠ c → hget (h.set c d) b = hget h b := by
  induction h with
  | nil => intro c b d _; rfl
  | cons x xs ih =>
    intro c b d hbc
    cases c with
    | zero =>
      cases b with
      | zero => exact absurd rfl hbc
      | succ b' => rfl
    | succ c' =>
      cases b with
      | zero => rfl
      | succ b' => exact ih c' b' d (fun hh => hbc (congrArg Nat.succ hh))

theorem unitLoopHeap_frame (c : Nat) (us : List (String × UnitE)) :
    ∀ (h : Heap) (b : Nat), b ≠ c →
    hget (unitLoopHeap c us h).1 b = hget h b := by
  induction us with
  | nil => intro h b _; rfl
  | cons ku rest ih =>
    intro h b hbc
    obtain ⟨k0, u0⟩ := ku
    cases hk : dget (hget h c) k0 with
    | none => simp only [unitLoopHeap, hk]
    | some v =>
      simp only [unitLoopHeap, hk]
      rw [ih _ b hbc, hget_set_ne h c b _ hbc]

theorem unitLoopHeap_length (c : Nat) (us : List (String × UnitE)) :
    ∀ h : Heap, (unitLoopHeap c us h).1.length = h.length := by
  induction us with
  | nil => intro h; rfl
  | cons ku rest ih =>
    intro h
    obtain ⟨k0, u0⟩ := ku
    cases hk : dget (hget h c) k0 with
    | none => simp only [unitLoopHeap, hk]
    | some v =>
      simp only [unitLoopHeap, hk]
      rw [ih]
      exact List.length_set h c _

theorem unitLoopHeap_absent (c : Nat) (us : List (String × UnitE)) :
    ∀ (h : Heap) (k : String), c < h.length →
    dget (hget h c) k = none →
    dget (hget (unitLoopHeap c us h).1 c) k = none := by
  induction us with
  | nil => intro h k _ hnone; exact hnone
  | cons ku rest ih =>
    intro h k hc hnone
    obtain ⟨k0, u0⟩ := ku
    cases hk : dget (hget h c) k0 with
    | none => simp only [unitLoopHeap, hk]; exact hnone
    | some v =>
      simp only [unitLoopHeap, hk]
      have hkk0 : k ≠ k0 := by
        intro hh; rw [hh, hk] at hnone; cases hnone
      apply ih
      · rw [List.length_set]; exact hc
      · rw [hget_set_self h c _ hc, dget_dinsert_ne _ _ _ _ hkk0]
        exact hnone

theorem unitLoopHeap_missing (c : Nat) (us : List (String × UnitE)) :
    ∀ h : Heap, c < h.length →
    (∃ ku ∈ us.map Prod.fst, dget (hget h c) ku = none) →
    (unitLoopHeap c us h).2 = some .keyError := by
  induction us with
  | nil => rintro h _ ⟨ku, hku, _⟩; exact absurd hku (List.not_mem_nil ku)
  | cons p rest ih =>
    rintro h hc ⟨ku, hku, hnone⟩
    obtain ⟨k0, u0⟩ := p
    cases hk : dget (hget h c) k0 with
    | none => simp only [unitLoopHeap, hk]
    | some v =>
      simp only [unitLoopHeap, hk]
      have hkk0 : ku ≠ k0 := by
        intro hh; rw [hh, hk] at hnone; cases hnone
      rcases List.mem_cons.mp hku with heq | hmem
      · exact absurd heq hkk0
      · apply ih
        · rw [List.length_set]; exact hc
        · refine ⟨ku, hmem, ?_⟩
          rw [hget_set_self h c _ hc, dget_dinsert_ne _ _ _ _ hkk0]
          exact hnone

theorem dpop_fst_sub {K V : Type} [DecidableEq K] (d : PyDict K V) (k x : K) :
    x ∈ (dpop d k).map Prod.fst → x ∈ d.map Prod.fst := by
  induction d with
  | nil => intro hx; exact hx
  | cons hd tl ih =>
    obtain ⟨k1, v1⟩ := hd
    by_cases hh : k1 = k
    · intro hx
      simp only [dpop, if_pos hh] at hx
      exact List.mem_cons_of_mem _ hx
    · intro hx
      simp only [dpop, if_neg hh, List.map_cons, List.mem_cons] at hx
      rcases hx with hx | hx
      · exact List.mem_cons.mpr (Or.inl hx)
      · exact List.mem_cons_of_mem _ (ih hx)

theorem dpop_nodup {K V : Type} [DecidableEq K] (d : PyDict K V) (k : K)
    (hnd : (d.map Prod.fst).Nodup) : ((dpop d k).map Prod.fst).Nodup := by
  induction d with
  | nil => exact hnd
  | cons hd tl ih =>
    obtain ⟨k1, v1⟩ := hd
    simp only [List.map_cons, List.nodup_cons] at hnd
    by_cases hh : k1 = k
    · simp only [dpop, if_pos hh]
      exact hnd.2
    · simp only [dpop, if_neg hh, List.map_cons, List.nodup_cons]
      exact ⟨fun hx => hnd.1 (dpop_fst_sub tl k k1 hx), ih hnd.2⟩

theorem dget_dpop_none {K V : Type} [DecidableEq K] (d : PyDict K V) :
    ∀ (k k' : K), dget d k = none → dget (dpop d k') k = none := by
  induction d with
  | nil => intro k k' _; rfl
  | cons hd tl ih =>
    intro k k' hnone
    obtain ⟨k1, v1⟩ := hd
    by_cases h1 : k1 = k
    · subst h1
      simp only [dget, if_pos rfl] at hnone
      cases hnone
    · simp only [dget, if_neg h1] at hnone
      by_cases h2 : k1 = k'
      · simp only [dpop, if_pos h2]
        exact hnone
      · simp only [dpop, if_neg h2, dget, if_neg h1]
        exact ih k k' hnone

theorem dropFold_none (ks : List String) :
    ∀ (d : ParamsDict) (k : String), dget d k = none →
    dget (ks.foldl (fun d' k' => dpop d' k') d) k = none := by
  induction ks with
  | nil => intro d k hnone; exact hnone
  | cons k0 rest ih =>
    intro d k hnone
    exact ih _ k (dget_dpop_none d k k0 hnone)

theorem dropFold_nodup (ks : List String) :
    ∀ d : ParamsDict, (d.map Prod.fst).Nodup →
    ((ks.foldl (fun d' k' => dpop d' k') d).map Prod.fst).Nodup := by
  induction ks with
  | nil => intro d hnd; exact hnd
  | cons k0 rest ih => intro d hnd; exact ih _ (dpop_nodup d k0 hnd)

theorem dropFold_absent (ks : List String) :
    ∀ (d : ParamsDict) (k : String), (d.map Prod.fst).Nodup → k ∈ ks →
    dget (ks.foldl (fun d' k' => dpop d' k') d) k = none := by
  induction ks with
  | nil => intro d k _ hk; exact absurd hk (List.not_mem_nil k)
  | cons k0 rest ih =>
    intro d k hnd hk
    rcases List.mem_cons.mp hk with heq | hmem
    · subst heq
      exact dropFold_none rest _ k (dget_dpop_self d k hnd)
    · exact ih _ k (dpop_nodup d k0 hnd) hmem

/-- Claim C10: `_copy_params` never mutates its `params` argument (the
dictionary at address `a` is unchanged), the returned dictionary is a
distinct object in which the drop keys are absent, and if some key of
`param_units` is absent from the copy after dropping, the call fails with a
`KeyError` instead of returning. -/
theorem claim_C10 (h : Heap) (a : Nat) (drop_keys : List String)
    (param_units : List (String × UnitE))
    (ha : a < h.length) (hnd : ((hget h a).map Prod.fst).Nodup) :
    hget (copy_params_heap h a drop_keys param_units).1 a = hget h a ∧
    (copy_params_heap h a drop_keys param_units).2.1 ≠ a ∧
    ((copy_params_heap h a drop_keys param_units).2.2 = none →
      ∀ k ∈ drop_keys,
        dget (hget (copy_params_heap h a drop_keys param_units).1
          (copy_params_heap h a drop_keys param_units).2.1) k = none) ∧
    ((∃ ku ∈ param_units.map Prod.fst,
        dget (drop_keys.foldl (fun d k => dpop d k) (hget h a)) ku = none) →
      (copy_params_heap h a drop_keys param_units).2.2 = some .keyError) := by
  have hc1 : hget (h ++ [hget h a]) h.length = hget h a := hget_append_last h _
  have hne : a ≠ h.length := Nat.ne_of_lt ha
  have hclt : h.length < (h ++ [hget h a]).length := by
    rw [List.length_append]
    exact Nat.lt_succ_self _
  have hlen2 : h.length < ((h ++ [hget h a]).set h.length
      (drop_keys.foldl (fun d k => dpop d k) (hget h a))).length := by
    rw [List.length_set]
    exact hclt
  simp only [copy_params_heap, hc1]
  refine ⟨?_, Ne.symm hne, ?_, ?_⟩
  · rw [unitLoopHeap_frame _ _ _ a hne, hget_set_ne _ _ _ _ hne,
      hget_append_lt h _ a ha]
  · intro _ k hk
    apply unitLoopHeap_absent _ _ _ k hlen2
    rw [hget_set_self _ _ _ hclt]
    exact dropFold_absent drop_keys (hget h a) k hnd hk
  · rintro ⟨ku, hku, hmiss⟩
    apply unitLoopHeap_missing _ _ _ hlen2
    refine ⟨ku, hku, ?_⟩
    rw [hget_set_self _ _ _ hclt]
    exact hmiss

/-- Witness for claim C10 on a concrete two-entry dictionary. -/
theorem claim_C10_witness :
    hget (copy_params_heap [[("epsilon", PVal.raw 1), ("charge", PVal.raw 2)]]
        0 ["charge"] [("epsilon", UnitE.kJ_per_mol)]).1 0 =
      hget [[("epsilon", PVal.raw 1), ("charge", PVal.raw 2)]] 0 ∧
    (copy_params_heap [[("epsilon", PVal.raw 1), ("charge", PVal.raw 2)]]
        0 ["charge"] [("epsilon", UnitE.kJ_per_mol)]).2.1 ≠ 0 ∧
    ((copy_params_heap [[("epsilon", PVal.raw 1), ("charge", PVal.raw 2)]]
        0 ["charge"] [("epsilon", UnitE.kJ_per_mol)]).2.2 = none →
      ∀ k ∈ ["charge"],
        dget (hget (copy_params_heap
            [[("epsilon", PVal.raw 1), ("charge", PVal.raw 2)]]
            0 ["charge"] [("epsilon", UnitE.kJ_per_mol)]).1
          (copy_params_heap [[("epsilon", PVal.raw 1), ("charge", PVal.raw 2)]]
            0 ["charge"] [("epsilon", UnitE.kJ_per_mol)]).2.1) k = none) ∧
    ((∃ ku ∈ [("epsilon", UnitE.kJ_per_mol)].map Prod.fst,
        dget (["charge"].foldl (fun d k => dpop d k)
          (hget [[("epsilon", PVal.raw 1), ("charge", PVal.raw 2)]] 0)) ku =
          none) →
      (copy_params_heap [[("epsilon", PVal.raw 1), ("charge", PVal.raw 2)]]
        0 ["charge"] [("epsilon", UnitE.kJ_per_mol)]).2.2 = some .keyError) :=
  claim_C10 [[("epsilon", PVal.raw 1), ("charge", PVal.raw 2)]] 0 ["charge"]
    [("epsilon", UnitE.kJ_per_mol)] (by decide) (by decide)

/-!  Run decomposition of `FoyerConnectedAtomsHandler.store_potentials`
(claims C1, C2 and C8).  -/

theorem takeWhile_of_sandwich {α : Type} (f : α → Bool) (pre : List α) :
    ∀ (q : α) (post : List α), (∀ p ∈ pre, f p = true) → f q = false →
    (pre ++ q :: post).takeWhile f = pre ∧
    (pre ++ q :: post).dropWhile f = q :: post := by
  induction pre with
  | nil =>
    intro q post _ hq
    simp only [List.nil_append]
    exact ⟨List.takeWhile_cons_of_neg (by simp [hq]),
      List.dropWhile_cons_of_neg (by simp [hq])⟩
  | cons p0 rest ih =>
    intro q post hpre hq
    have hp0 : f p0 = true := hpre p0 (List.mem_cons_self _ _)
    obtain ⟨h1, h2⟩ := ih q post
      (fun p hp => hpre p (List.mem_cons_of_mem _ hp)) hq
    constructor
    · simp only [List.cons_append, List.takeWhile_cons_of_pos hp0, h1]
    · simp only [List.cons_append, List.dropWhile_cons_of_pos hp0, h2]

theorem connPotGo_run (ff : Forcefield) (kind : BondedKind)
    (l : List (TopologyKey × PotentialKey)) :
    ∀ st : HandlerState,
    (l.dropWhile (okOrSkipB ff kind) = [] →
      connPotGo ff kind l st =
        ({ st with potentials := processedPots ff kind l st.potentials },
         none, l.map traceKey)) ∧
    (∀ q post, l.dropWhile (okOrSkipB ff kind) = q :: post →
      (stepResult ff kind q.2 = .error .missingForce →
        connPotGo ff kind l st =
          (⟨[], []⟩, none,
           (l.takeWhile (okOrSkipB ff kind)).map traceKey ++ [traceKey q])) ∧
      (∀ e, e ≠ Err.missingForce → stepResult ff kind q.2 = .error e →
        connPotGo ff kind l st =
          ({ st with potentials := processedPots ff kind (l.takeWhile (okOrSkipB ff kind)) st.potentials },
           some e,
           (l.takeWhile (okOrSkipB ff kind)).map traceKey ++ [traceKey q]))) := by
  induction l with
  | nil =>
    intro st
    refine ⟨fun _ => rfl, fun q post h => ?_⟩
    cases h
  | cons p rest ih =>
    intro st
    obtain ⟨tk0, pk0⟩ := p
    cases hok : okOrSkipB ff kind (tk0, pk0) with
    | true =>
      have htw : (((tk0, pk0) :: rest).takeWhile (okOrSkipB ff kind)) =
          (tk0, pk0) :: rest.takeWhile (okOrSkipB ff kind) :=
        List.takeWhile_cons_of_pos hok
      have hdw : (((tk0, pk0) :: rest).dropWhile (okOrSkipB ff kind)) =
          rest.dropWhile (okOrSkipB ff kind) :=
        List.dropWhile_cons_of_pos hok
      cases hstep : stepResult ff kind pk0 with
      | ok d =>
        constructor
        · intro hnil
          rw [hdw] at hnil
          have hrec := (ih { st with potentials := dinsert st.potentials pk0 ⟨d⟩ }).1 hnil
          simp only [connPotGo, hstep, hrec, processedPots, List.map_cons,
            traceKey]
        · intro q post h
          rw [hdw] at h
          have hrec := (ih { st with potentials := dinsert st.potentials pk0 ⟨d⟩ }).2 q post h
          constructor
          · intro hmf
            have heq := hrec.1 hmf
            simp only [connPotGo, hstep, heq, htw, processedPots,
              List.map_cons, List.cons_append, traceKey]
          · intro e hne hstep'
            have heq := hrec.2 e hne hstep'
            simp only [connPotGo, hstep, heq, htw, processedPots,
              List.map_cons, List.cons_append, traceKey]
      | error err0 =>
        simp only [okOrSkipB, hstep] at hok
        cases err0 with
        | missingForce => cases hok
        | keyError => cases hok
        | missingParams =>
          have hraise : kind.raise_on_missing_params = false := by
            simpa using hok
          constructor
          · intro hnil
            rw [hdw] at hnil
            have hrec := (ih st).1 hnil
            simp only [connPotGo, hstep, hraise, Bool.false_eq_true, if_false,
              hrec, processedPots, List.map_cons, traceKey]
          · intro q post h
            rw [hdw] at h
            have hrec := (ih st).2 q post h
            constructor
            · intro hmf
              have heq := hrec.1 hmf
              simp only [connPotGo, hstep, hraise, Bool.false_eq_true,
                if_false, heq, htw, processedPots, List.map_cons,
                List.cons_append, traceKey]
            · intro e hne hstep'
              have heq := hrec.2 e hne hstep'
              simp only [connPotGo, hstep, hraise, Bool.false_eq_true,
                if_false, heq, htw, processedPots, List.map_cons,
                List.cons_append, traceKey]
    | false =>
      have htw : (((tk0, pk0) :: rest).takeWhile (okOrSkipB ff kind)) = [] :=
        List.takeWhile_cons_of_neg (by simp [hok])
      have hdw : (((tk0, pk0) :: rest).dropWhile (okOrSkipB ff kind)) =
          (tk0, pk0) :: rest :=
        List.dropWhile_cons_of_neg (by simp [hok])
      constructor
      · intro hnil
        rw [hdw] at hnil
        cases hnil
      · intro q post h
        rw [hdw] at h
        injection h with h1 h2
        subst h1
        subst h2
        cases hstep : stepResult ff kind pk0 with
        | ok d =>
          rw [okOrSkipB, hstep] at hok
          cases hok
        | error err0 =>
          constructor
          · intro hmf
            injection hmf with hmf''
            subst hmf''
            simp [connPotGo, hstep, htw, traceKey]
          · intro e hne hstep'
            injection hstep' with he
            subst he
            cases err0 with
            | missingForce => exact absurd rfl hne
            | missingParams =>
              rw [okOrSkipB, hstep] at hok
              have hraise : kind.raise_on_missing_params = true := by
                simpa using hok
              simp [connPotGo, hstep, hraise, htw, processedPots, traceKey]
            | keyError =>
              simp [connPotGo, hstep, htw, processedPots, traceKey]

theorem processedPots_inv (ff : Forcefield) (kind : BondedKind)
    (l : List (TopologyKey × PotentialKey)) :
    ∀ (pots : PyDict PotentialKey Potential) (pk : PotentialKey)
      (d : ParamsDict),
    stepResult ff kind pk = .ok d → dget pots pk = some ⟨d⟩ →
    dget (processedPots ff kind l pots) pk = some ⟨d⟩ := by
  induction l with
  | nil => intro pots pk d _ hin; exact hin
  | cons q rest ih =>
    intro pots pk d hstep hin
    cases hq : stepResult ff kind q.2 with
    | ok dq =>
      simp only [processedPots, hq]
      apply ih _ pk d hstep
      by_cases hpk : q.2 = pk
      · rw [hpk] at hq
        rw [hstep] at hq
        injection hq with hdq
        rw [hpk, ← hdq]
        exact dget_dinsert_self _ _ _
      · rw [dget_dinsert_ne _ _ _ _ (fun hh => hpk hh.symm)]
        exact hin
    | error e =>
      simp only [processedPots, hq]
      exact ih _ pk d hstep hin

theorem processedPots_mem (ff : Forcefield) (kind : BondedKind)
    (l : List (TopologyKey × PotentialKey)) :
    ∀ (pots : PyDict PotentialKey Potential) (p : TopologyKey × PotentialKey)
      (d : ParamsDict),
    p ∈ l → stepResult ff kind p.2 = .ok d →
    dget (processedPots ff kind l pots) p.2 = some ⟨d⟩ := by
  induction l with
  | nil => intro pots p d hp _; exact absurd hp (List.not_mem_nil p)
  | cons q rest ih =>
    intro pots p d hp hstep
    rcases List.mem_cons.mp hp with heq | hmem
    · subst heq
      simp only [processedPots, hstep]
      exact processedPots_inv ff kind rest _ p.2 d hstep
        (dget_dinsert_self _ _ _)
    · cases hq : stepResult ff kind q.2 with
      | ok dq =>
        simp only [processedPots, hq]
        exact ih _ p d hmem hstep
      | error e =>
        simp only [processedPots, hq]
        exact ih _ p d hmem hstep

theorem processedPots_frame_err (ff : Forcefield) (kind : BondedKind)
    (l : List (TopologyKey × PotentialKey)) :
    ∀ (pots : PyDict PotentialKey Potential) (pk : PotentialKey),
    (∀ q ∈ l, q.2 = pk → ∃ e, stepResult ff kind q.2 = .error e) →
    dget (processedPots ff kind l pots) pk = dget pots pk := by
  induction l with
  | nil => intro pots pk _; rfl
  | cons q rest ih =>
    intro pots pk hcond
    cases hq : stepResult ff kind q.2 with
    | ok dq =>
      simp only [processedPots, hq]
      have hne : q.2 ≠ pk := by
        intro heq
        obtain ⟨e, he⟩ := hcond q (List.mem_cons_self _ _) heq
        rw [hq] at he
        cases he
      rw [ih _ pk (fun q' hq' => hcond q' (List.mem_cons_of_mem _ hq')),
        dget_dinsert_ne _ _ _ _ (fun hh => hne hh.symm)]
    | error e =>
      simp only [processedPots, hq]
      exact ih _ pk (fun q' hq' => hcond q' (List.mem_cons_of_mem _ hq'))

/-- Claim C1: for every connected-atoms handler, a `MissingForceError` from
the engine during `store_potentials` is suppressed (the call returns
normally), `slot_map` and `potentials` are left as empty dictionaries, and
no keys after the failing one are looked up. -/
theorem claim_C1 (ff : Forcefield) (kind : BondedKind) (st : HandlerState)
    (pre post : List (TopologyKey × PotentialKey)) (tk : TopologyKey)
    (pk : PotentialKey)
    (hsm : st.slot_map = pre ++ (tk, pk) :: post)
    (hpre : ∀ p ∈ pre, okOrSkipB ff kind p = true)
    (hpk : ff.get_parameters kind.type (splitSep pk.id) =
      .error .missingForce) :
    FoyerConnectedAtomsHandler.store_potentials ff kind st =
      (⟨[], []⟩, none, pre.map traceKey ++ [splitSep pk.id]) := by
  have hstep : stepResult ff kind pk = .error .missingForce := by
    simp only [stepResult, hpk]
  have hq : okOrSkipB ff kind (tk, pk) = false := by
    simp only [okOrSkipB, hstep]
  obtain ⟨htw, hdw⟩ :=
    takeWhile_of_sandwich (okOrSkipB ff kind) pre (tk, pk) post hpre hq
  have hdw' : st.slot_map.dropWhile (okOrSkipB ff kind) = (tk, pk) :: post := by
    rw [hsm]; exact hdw
  have htw' : st.slot_map.takeWhile (okOrSkipB ff kind) = pre := by
    rw [hsm]; exact htw
  have hrun :=
    ((connPotGo_run ff kind st.slot_map st).2 (tk, pk) post hdw').1 hstep
  rw [htw'] at hrun
  exact hrun

/-- Witness for claim C1: one bond whose force generator is missing. -/
theorem claim_C1_witness :
    FoyerConnectedAtomsHandler.store_potentials ffMF BondedKind.harmonicBond
      ⟨[(⟨[0, 1]⟩, ⟨"a-b"⟩)], []⟩ =
    (⟨[], []⟩, none, [splitSep "a-b"]) :=
  claim_C1 ffMF .harmonicBond ⟨[(⟨[0, 1]⟩, ⟨"a-b"⟩)], []⟩ [] [] ⟨[0, 1]⟩
    ⟨"a-b"⟩ rfl (fun p hp => absurd hp (List.not_mem_nil p)) rfl

/-- Claim C2: during `FoyerConnectedAtomsHandler.store_potentials`, a
`MissingParametersError` propagates exactly when `raise_on_missing_params`
is `True` (the default, kept by the harmonic bond and angle handlers);
when it is `False` (the RB and periodic proper handlers and their improper
subclasses) the offending key is skipped, no potential is stored for it,
and the remaining keys are still processed. -/
theorem claim_C2 (ff : Forcefield) (kind : BondedKind) (st : HandlerState)
    (pre post : List (TopologyKey × PotentialKey)) (tk : TopologyKey)
    (pk : PotentialKey)
    (hsm : st.slot_map = pre ++ (tk, pk) :: post)
    (hpots : st.potentials = [])
    (hpre : ∀ p ∈ pre, ∃ d, stepResult ff kind p.2 = .ok d)
    (hpost : ∀ p ∈ post, ∃ d, stepResult ff kind p.2 = .ok d)
    (hpk : ff.get_parameters kind.type (splitSep pk.id) =
      .error .missingParams) :
    (BondedKind.raise_on_missing_params .harmonicBond = true ∧
     BondedKind.raise_on_missing_params .harmonicAngle = true ∧
     BondedKind.raise_on_missing_params .rbProper = false ∧
     BondedKind.raise_on_missing_params .rbImproper = false ∧
     BondedKind.raise_on_missing_params .periodicProper = false ∧
     BondedKind.raise_on_missing_params .periodicImproper = false) ∧
    (kind.raise_on_missing_params = true →
      (FoyerConnectedAtomsHandler.store_potentials ff kind st).2.1 =
        some .missingParams ∧
      (FoyerConnectedAtomsHandler.store_potentials ff kind st).2.2 =
        pre.map traceKey ++ [splitSep pk.id] ∧
      dget (FoyerConnectedAtomsHandler.store_potentials
        ff kind st).1.potentials pk = none ∧
      ∀ p ∈ pre, ∃ d, stepResult ff kind p.2 = .ok d ∧
        dget (FoyerConnectedAtomsHandler.store_potentials
          ff kind st).1.potentials p.2 = some ⟨d⟩) ∧
    (kind.raise_on_missing_params = false →
      (FoyerConnectedAtomsHandler.store_potentials ff kind st).2.1 = none ∧
      (FoyerConnectedAtomsHandler.store_potentials ff kind st).2.2 =
        (pre ++ (tk, pk) :: post).map traceKey ∧
      dget (FoyerConnectedAtomsHandler.store_potentials
        ff kind st).1.potentials pk = none ∧
      ∀ p ∈ pre ++ post, ∃ d, stepResult ff kind p.2 = .ok d ∧
        dget (FoyerConnectedAtomsHandler.store_potentials
          ff kind st).1.potentials p.2 = some ⟨d⟩) := by
  have hstep : stepResult ff kind pk = .error .missingParams := by
    simp only [stepResult, hpk]
  have hpkframe : ∀ (l : List (TopologyKey × PotentialKey)),
      ∀ q ∈ l, q.2 = pk → ∃ e, stepResult ff kind q.2 = .error e :=
    fun _ q _ heq => ⟨.missingParams, by rw [heq]; exact hstep⟩
  have hpreokB : ∀ p ∈ pre, okOrSkipB ff kind p = true := by
    intro p hp
    obtain ⟨d, hd⟩ := hpre p hp
    simp only [okOrSkipB, hd]
  refine ⟨⟨rfl, rfl, rfl, rfl, rfl, rfl⟩, ?_, ?_⟩
  · intro hraise
    have hq : okOrSkipB ff kind (tk, pk) = false := by
      simp only [okOrSkipB, hstep, hraise, Bool.not_true]
    obtain ⟨htw, hdw⟩ :=
      takeWhile_of_sandwich (okOrSkipB ff kind) pre (tk, pk) post hpreokB hq
    have hdw' : st.slot_map.dropWhile (okOrSkipB ff kind) =
        (tk, pk) :: post := by rw [hsm]; exact hdw
    have htw' : st.slot_map.takeWhile (okOrSkipB ff kind) = pre := by
      rw [hsm]; exact htw
    have hrun :=
      ((connPotGo_run ff kind st.slot_map st).2 (tk, pk) post hdw').2
        Err.missingParams (by intro hh; cases hh) hstep
    rw [htw'] at hrun
    have hsp : FoyerConnectedAtomsHandler.store_potentials ff kind st =
        ({ st with potentials := processedPots ff kind pre st.potentials },
         some .missingParams, pre.map traceKey ++ [traceKey (tk, pk)]) := hrun
    rw [hsp]
    refine ⟨rfl, rfl, ?_, ?_⟩
    · show dget (processedPots ff kind pre st.potentials) pk = none
      rw [processedPots_frame_err ff kind pre _ pk (hpkframe pre), hpots]
      rfl
    · intro p hp
      obtain ⟨d, hd⟩ := hpre p hp
      exact ⟨d, hd, processedPots_mem ff kind pre _ p d hp hd⟩
  · intro hraise
    have hallok : ∀ p ∈ st.slot_map, okOrSkipB ff kind p = true := by
      intro p hp
      rw [hsm] at hp
      rcases List.mem_append.mp hp with hl | hr
      · exact hpreokB p hl
      · rcases List.mem_cons.mp hr with heq | hmem
        · subst heq
          simp only [okOrSkipB, hstep, hraise, Bool.not_false]
        · obtain ⟨d, hd⟩ := hpost p hmem
          simp only [okOrSkipB, hd]
    have hdw0 : st.slot_map.dropWhile (okOrSkipB ff kind) = [] :=
      List.dropWhile_eq_nil_iff.mpr hallok
    have hrun := (connPotGo_run ff kind st.slot_map st).1 hdw0
    have hsp : FoyerConnectedAtomsHandler.store_potentials ff kind st =
        ({ st with potentials :=
            processedPots ff kind st.slot_map st.potentials },
         none, st.slot_map.map traceKey) := hrun
    rw [hsp]
    refine ⟨rfl, ?_, ?_, ?_⟩
    · show st.slot_map.map traceKey = _
      rw [hsm]
    · show dget (processedPots ff kind st.slot_map st.potentials) pk = none
      rw [processedPots_frame_err ff kind st.slot_map _ pk
        (hpkframe st.slot_map), hpots]
      rfl
    · intro p hp
      have hstepp : ∃ d, stepResult ff kind p.2 = .ok d := by
        rcases List.mem_append.mp hp with hl | hr
        · exact hpre p hl
        · exact hpost p hr
      obtain ⟨d, hd⟩ := hstepp
      have hpmem : p ∈ st.slot_map := by
        rw [hsm]
        rcases List.mem_append.mp hp with hl | hr
        · exact List.mem_append.mpr (Or.inl hl)
        · exact List.mem_append.mpr (Or.inr (List.mem_cons_of_mem _ hr))
      exact ⟨d, hd, processedPots_mem ff kind st.slot_map _ p d hpmem hd⟩

/-- Witness for claim C2: one RB proper whose parameters are missing. -/
theorem claim_C2_witness :
    (BondedKind.raise_on_missing_params .harmonicBond = true ∧
     BondedKind.raise_on_missing_params .harmonicAngle = true ∧
     BondedKind.raise_on_missing_params .rbProper = false ∧
     BondedKind.raise_on_missing_params .rbImproper = false ∧
     BondedKind.raise_on_missing_params .periodicProper = false ∧
     BondedKind.raise_on_missing_params .periodicImproper = false) ∧
    (BondedKind.raise_on_missing_params BondedKind.rbProper = true →
      (FoyerConnectedAtomsHandler.store_potentials ffMP BondedKind.rbProper
        ⟨[(⟨[0, 1]⟩, ⟨"a-b"⟩)], []⟩).2.1 = some .missingParams ∧
      (FoyerConnectedAtomsHandler.store_potentials ffMP BondedKind.rbProper
        ⟨[(⟨[0, 1]⟩, ⟨"a-b"⟩)], []⟩).2.2 = [splitSep "a-b"] ∧
      dget (FoyerConnectedAtomsHandler.store_potentials ffMP BondedKind.rbProper
        ⟨[(⟨[0, 1]⟩, ⟨"a-b"⟩)], []⟩).1.potentials ⟨"a-b"⟩ = none ∧
      ∀ p ∈ ([] : List (TopologyKey × PotentialKey)), ∃ d,
        stepResult ffMP BondedKind.rbProper p.2 = .ok d ∧
        dget (FoyerConnectedAtomsHandler.store_potentials ffMP
          BondedKind.rbProper
          ⟨[(⟨[0, 1]⟩, ⟨"a-b"⟩)], []⟩).1.potentials p.2 = some ⟨d⟩) ∧
    (BondedKind.raise_on_missing_params BondedKind.rbProper = false →
      (FoyerConnectedAtomsHandler.store_potentials ffMP BondedKind.rbProper
        ⟨[(⟨[0, 1]⟩, ⟨"a-b"⟩)], []⟩).2.1 = none ∧
      (FoyerConnectedAtomsHandler.store_potentials ffMP BondedKind.rbProper
        ⟨[(⟨[0, 1]⟩, ⟨"a-b"⟩)], []⟩).2.2 =
        [traceKey (⟨[0, 1]⟩, ⟨"a-b"⟩)] ∧
      dget (FoyerConnectedAtomsHandler.store_potentials ffMP BondedKind.rbProper
        ⟨[(⟨[0, 1]⟩, ⟨"a-b"⟩)], []⟩).1.potentials ⟨"a-b"⟩ = none ∧
      ∀ p ∈ ([] : List (TopologyKey × PotentialKey)), ∃ d,
        stepResult ffMP BondedKind.rbProper p.2 = .ok d ∧
        dget (FoyerConnectedAtomsHandler.store_potentials ffMP
          BondedKind.rbProper
          ⟨[(⟨[0, 1]⟩, ⟨"a-b"⟩)], []⟩).1.potentials p.2 = some ⟨d⟩) :=
  claim_C2 ffMP BondedKind.rbProper ⟨[(⟨[0, 1]⟩, ⟨"a-b"⟩)], []⟩ [] []
    ⟨[0, 1]⟩ ⟨"a-b"⟩ rfl rfl
    (fun p hp => absurd hp (List.not_mem_nil p))
    (fun p hp => absurd hp (List.not_mem_nil p)) rfl

/-!  Per-instance state (claim C7) and idempotence (claim C8).  -/

theorem getD_set_ne {α : Type} (l : List α) (dflt : α) :
    ∀ (c b : Nat) (x : α), b ≠ c →
    (l.set c x).getD b dflt = l.getD b dflt := by
  induction l with
  | nil => intro c b x _; rfl
  | cons y ys ih =>
    intro c b x hbc
    cases c with
    | zero =>
      cases b with
      | zero => exact absurd rfl hbc
      | succ b' => rfl
    | succ c' =>
      cases b with
      | zero => rfl
      | succ b' => exact ih c' b' x (fun hh => hbc (congrArg Nat.succ hh))

/-- Claim C7: the caches are per-instance state: a store operation applied
to instance `i` leaves every other instance's `slot_map`, `potentials` and
`charges` unchanged. -/
theorem claim_C7 (insts : List InstanceState) (i j : Nat) (op : StoreOp)
    (hne : j ≠ i) :
    (updateInstance insts i op).getD j default = insts.getD j default :=
  getD_set_ne insts default i j _ hne

/-- Witness for claim C7 with two instances and a vdW store operation. -/
theorem claim_C7_witness :
    (updateInstance [⟨[], [], []⟩, ⟨[], [], []⟩] 0
      (.vdwMatches [(0, ⟨"opls_135"⟩)])).getD 1 default =
    [(⟨[], [], []⟩ : InstanceState), ⟨[], [], []⟩].getD 1 default :=
  claim_C7 [⟨[], [], []⟩, ⟨[], [], []⟩] 0 1
    (.vdwMatches [(0, ⟨"opls_135"⟩)]) (by decide)

theorem vdw_matches_fixed (type_map : List (Nat × AtomTypeInfo)) :
    ∀ m : PyDict TopologyKey PotentialKey,
    (∀ kv ∈ type_map, dget m ⟨[kv.1]⟩ = some ⟨kv.2.atomtype⟩) →
    FoyerVDWHandler.store_matches type_map m = m := by
  induction type_map with
  | nil => intro m _; rfl
  | cons kv rest ih =>
    intro m hfix
    simp only [FoyerVDWHandler.store_matches]
    rw [dinsert_eq_of_dget _ _ _ (hfix kv (List.mem_cons_self _ _))]
    exact ih m (fun kv' hkv' => hfix kv' (List.mem_cons_of_mem _ hkv'))

theorem vdwPotGo_idem (ff : Forcefield) (l : List (TopologyKey × PotentialKey)) :
    ∀ pots : PyDict PotentialKey Potential,
    vdwPotGo ff l (vdwPotGo ff l pots).1 = vdwPotGo ff l pots := by
  induction l with
  | nil => intro pots; rfl
  | cons p rest ih =>
    intro pots
    obtain ⟨tk0, pk0⟩ := p
    cases hff : ff.get_parameters FoyerVDWHandler.type [pk0.id] with
    | error e => simp only [vdwPotGo, hff]
    | ok dd =>
      cases hcp : copy_params dd ["charge"]
          [("epsilon", .kJ_per_mol), ("sigma", .nm)] with
      | error e => simp only [vdwPotGo, hff, hcp]
      | ok pp =>
        have hval : vdwVal ff pk0 = some ⟨pp⟩ := by
          simp only [vdwVal, hff, hcp]
        have hget : dget (vdwPotGo ff rest
            (dinsert pots pk0 ⟨pp⟩)).1 pk0 = some ⟨pp⟩ :=
          vdwPotGo_inv ff rest _ pk0 ⟨pp⟩ hval (dget_dinsert_self _ _ _)
        simp only [vdwPotGo, hff, hcp]
        rw [dinsert_eq_of_dget _ _ _ hget]
        exact ih _

theorem connMatchesGo_idem (atom_slots : PyDict TopologyKey PotentialKey)
    (conns : List Connection) :
    ∀ sm : PyDict TopologyKey PotentialKey,
    connMatchesGo atom_slots conns (connMatchesGo atom_slots conns sm).1 =
      connMatchesGo atom_slots conns sm := by
  induction conns with
  | nil => intro sm; rfl
  | cons c rest ih =>
    intro sm
    cases hc : potKeyIds atom_slots c with
    | error e => simp only [connMatchesGo, hc]
    | ok ids =>
      have hval : connVal atom_slots c =
          some ⟨String.intercalate POTENTIAL_KEY_SEPARATOR ids⟩ := by
        simp only [connVal, hc]
      have hget : dget (connMatchesGo atom_slots rest
          (dinsert sm ⟨c⟩ ⟨String.intercalate POTENTIAL_KEY_SEPARATOR ids⟩)).1
          ⟨c⟩ = some ⟨String.intercalate POTENTIAL_KEY_SEPARATOR ids⟩ :=
        connMatchesGo_inv atom_slots rest _ c _ hval (dget_dinsert_self _ _ _)
      simp only [connMatchesGo, hc]
      rw [dinsert_eq_of_dget _ _ _ hget]
      exact ih _

theorem chargesGo_idem (ff : Forcefield) (l : List (TopologyKey × PotentialKey)) :
    ∀ ch : PyDict TopologyKey PVal, (l.map Prod.fst).Nodup →
    chargesGo ff l (chargesGo ff l ch).1 = chargesGo ff l ch := by
  induction l with
  | nil => intro ch _; rfl
  | cons p rest ih =>
    intro ch hnd
    obtain ⟨tk0, pk0⟩ := p
    simp only [List.map_cons, List.nodup_cons] at hnd
    cases hff : ff.get_parameters "atoms" [pk0.id] with
    | error e => simp only [chargesGo, hff]
    | ok dd =>
      cases hch : dget dd "charge" with
      | none => simp only [chargesGo, hff, hch]
      | some c =>
        have hget : dget (chargesGo ff rest
            (dinsert ch tk0 (.mul c .elementary_charge))).1 tk0 =
            some (.mul c .elementary_charge) := by
          rw [chargesGo_frame ff rest _ tk0 hnd.1]
          exact dget_dinsert_self _ _ _
        simp only [chargesGo, hff, hch]
        rw [dinsert_eq_of_dget _ _ _ hget]
        exact ih _ hnd.2

theorem processedPots_fixed (ff : Forcefield) (kind : BondedKind)
    (l : List (TopologyKey × PotentialKey)) :
    ∀ pots : PyDict PotentialKey Potential,
    (∀ p ∈ l, ∀ d, stepResult ff kind p.2 = .ok d →
      dget pots p.2 = some ⟨d⟩) →
    processedPots ff kind l pots = pots := by
  induction l with
  | nil => intro pots _; rfl
  | cons q rest ih =>
    intro pots hfix
    cases hq : stepResult ff kind q.2 with
    | ok d =>
      simp only [processedPots, hq]
      rw [dinsert_eq_of_dget _ _ _ (hfix q (List.mem_cons_self _ _) d hq)]
      exact ih pots (fun p hp => hfix p (List.mem_cons_of_mem _ hp))
    | error e =>
      simp only [processedPots, hq]
      exact ih pots (fun p hp => hfix p (List.mem_cons_of_mem _ hp))

theorem processedPots_idem (ff : Forcefield) (kind : BondedKind)
    (l : List (TopologyKey × PotentialKey))
    (pots : PyDict PotentialKey Potential) :
    processedPots ff kind l (processedPots ff kind l pots) =
      processedPots ff kind l pots :=
  processedPots_fixed ff kind l _
    (fun p hp d hd => processedPots_mem ff kind l pots p d hp hd)

theorem dropWhile_head_false {α : Type} (f : α → Bool) (l : List α) :
    ∀ (q : α) (post : List α), l.dropWhile f = q :: post → f q = false := by
  induction l with
  | nil => intro q post h; cases h
  | cons a rest ih =>
    intro q post h
    cases hfa : f a with
    | true =>
      rw [List.dropWhile_cons_of_pos hfa] at h
      exact ih q post h
    | false =>
      rw [List.dropWhile_cons_of_neg (by simp [hfa])] at h
      injection h with h1 _
      subst h1
      exact hfa

theorem connPot_idem (ff : Forcefield) (kind : BondedKind) (st : HandlerState) :
    (FoyerConnectedAtomsHandler.store_potentials ff kind
      (FoyerConnectedAtomsHandler.store_potentials ff kind st).1).1 =
      (FoyerConnectedAtomsHandler.store_potentials ff kind st).1 ∧
    (FoyerConnectedAtomsHandler.store_potentials ff kind
      (FoyerConnectedAtomsHandler.store_potentials ff kind st).1).2.1 =
      (FoyerConnectedAtomsHandler.store_potentials ff kind st).2.1 := by
  cases hdw : st.slot_map.dropWhile (okOrSkipB ff kind) with
  | nil =>
    have hfst : FoyerConnectedAtomsHandler.store_potentials ff kind st =
        (HandlerState.mk st.slot_map
          (processedPots ff kind st.slot_map st.potentials),
         none, st.slot_map.map traceKey) :=
      (connPotGo_run ff kind st.slot_map st).1 hdw
    have hsnd : FoyerConnectedAtomsHandler.store_potentials ff kind
        (HandlerState.mk st.slot_map
          (processedPots ff kind st.slot_map st.potentials)) =
        (HandlerState.mk st.slot_map
          (processedPots ff kind st.slot_map
            (processedPots ff kind st.slot_map st.potentials)),
         none, st.slot_map.map traceKey) :=
      (connPotGo_run ff kind st.slot_map
        (HandlerState.mk st.slot_map
          (processedPots ff kind st.slot_map st.potentials))).1 hdw
    simp only [hfst, hsnd, processedPots_idem]
    exact ⟨trivial, trivial⟩
  | cons q post =>
    have hfq : okOrSkipB ff kind q = false :=
      dropWhile_head_false _ _ q post hdw
    cases hstepq : stepResult ff kind q.2 with
    | ok d =>
      rw [okOrSkipB, hstepq] at hfq
      cases hfq
    | error e =>
      cases e with
      | missingForce =>
        have hfst : FoyerConnectedAtomsHandler.store_potentials ff kind st =
            (⟨[], []⟩, none,
             (st.slot_map.takeWhile (okOrSkipB ff kind)).map traceKey ++
              [traceKey q]) :=
          ((connPotGo_run ff kind st.slot_map st).2 q post hdw).1 hstepq
        simp only [hfst]
        exact ⟨rfl, rfl⟩
      | missingParams =>
        have hne : (Err.missingParams) ≠ Err.missingForce := by
          intro hh; cases hh
        have hfst : FoyerConnectedAtomsHandler.store_potentials ff kind st =
            (HandlerState.mk st.slot_map
              (processedPots ff kind
                (st.slot_map.takeWhile (okOrSkipB ff kind)) st.potentials),
             some .missingParams,
             (st.slot_map.takeWhile (okOrSkipB ff kind)).map traceKey ++
              [traceKey q]) :=
          ((connPotGo_run ff kind st.slot_map st).2 q post hdw).2 _ hne hstepq
        have hsnd : FoyerConnectedAtomsHandler.store_potentials ff kind
            (HandlerState.mk st.slot_map
              (processedPots ff kind
                (st.slot_map.takeWhile (okOrSkipB ff kind)) st.potentials)) =
            (HandlerState.mk st.slot_map
              (processedPots ff kind
                (st.slot_map.takeWhile (okOrSkipB ff kind))
                (processedPots ff kind
                  (st.slot_map.takeWhile (okOrSkipB ff kind))
                  st.potentials)),
             some .missingParams,
             (st.slot_map.takeWhile (okOrSkipB ff kind)).map traceKey ++
              [traceKey q]) :=
          ((connPotGo_run ff kind st.slot_map
            (HandlerState.mk st.slot_map
              (processedPots ff kind
                (st.slot_map.takeWhile (okOrSkipB ff kind))
                st.potentials))).2 q post hdw).2 _ hne hstepq
        simp only [hfst, hsnd, processedPots_idem]
        exact ⟨trivial, trivial⟩
      | keyError =>
        have hne : (Err.keyError) ≠ Err.missingForce := by
          intro hh; cases hh
        have hfst : FoyerConnectedAtomsHandler.store_potentials ff kind st =
            (HandlerState.mk st.slot_map
              (processedPots ff kind
                (st.slot_map.takeWhile (okOrSkipB ff kind)) st.potentials),
             some .keyError,
             (st.slot_map.takeWhile (okOrSkipB ff kind)).map traceKey ++
              [traceKey q]) :=
          ((connPotGo_run ff kind st.slot_map st).2 q post hdw).2 _ hne hstepq
        have hsnd : FoyerConnectedAtomsHandler.store_potentials ff kind
            (HandlerState.mk st.slot_map
              (processedPots ff kind
                (st.slot_map.takeWhile (okOrSkipB ff kind)) st.potentials)) =
            (HandlerState.mk st.slot_map
              (processedPots ff kind
                (st.slot_map.takeWhile (okOrSkipB ff kind))
                (processedPots ff kind
                  (st.slot_map.takeWhile (okOrSkipB ff kind))
                  st.potentials)),
             some .keyError,
             (st.slot_map.takeWhile (okOrSkipB ff kind)).map traceKey ++
              [traceKey q]) :=
          ((connPotGo_run ff kind st.slot_map
            (HandlerState.mk st.slot_map
              (processedPots ff kind
                (st.slot_map.takeWhile (okOrSkipB ff kind))
                st.potentials))).2 q post hdw).2 _ hne hstepq
        simp only [hfst, hsnd, processedPots_idem]
        exact ⟨trivial, trivial⟩

/-- Claim C8: each store operation is idempotent: re-running
`store_matches`, `store_potentials` or `store_charges` with the same
arguments leaves the dictionary it populates (and the raised exception, if
any) unchanged. -/
theorem claim_C8 (type_map : List (Nat × AtomTypeInfo))
    (sm1 sm2 sm3 : PyDict TopologyKey PotentialKey) (ff : Forcefield)
    (pots : PyDict PotentialKey Potential)
    (atom_slots : PyDict TopologyKey PotentialKey)
    (conns : List Connection) (ch : PyDict TopologyKey PVal)
    (st : HandlerState) (kind : BondedKind)
    (hnd_tm : (type_map.map Prod.fst).Nodup)
    (hnd_slots : (atom_slots.map Prod.fst).Nodup) :
    FoyerVDWHandler.store_matches type_map
      (FoyerVDWHandler.store_matches type_map sm1) =
      FoyerVDWHandler.store_matches type_map sm1 ∧
    FoyerVDWHandler.store_potentials ff sm2
      (FoyerVDWHandler.store_potentials ff sm2 pots).1 =
      FoyerVDWHandler.store_potentials ff sm2 pots ∧
    FoyerConnectedAtomsHandler.store_matches atom_slots conns
      (FoyerConnectedAtomsHandler.store_matches atom_slots conns sm3).1 =
      FoyerConnectedAtomsHandler.store_matches atom_slots conns sm3 ∧
    ((FoyerConnectedAtomsHandler.store_potentials ff kind
      (FoyerConnectedAtomsHandler.store_potentials ff kind st).1).1 =
      (FoyerConnectedAtomsHandler.store_potentials ff kind st).1 ∧
     (FoyerConnectedAtomsHandler.store_potentials ff kind
      (FoyerConnectedAtomsHandler.store_potentials ff kind st).1).2.1 =
      (FoyerConnectedAtomsHandler.store_potentials ff kind st).2.1) ∧
    FoyerElectrostaticsHandler.store_charges atom_slots ff
      (FoyerElectrostaticsHandler.store_charges atom_slots ff ch).1 =
      FoyerElectrostaticsHandler.store_charges atom_slots ff ch :=
  ⟨vdw_matches_fixed type_map _
    (fun kv hkv => vdw_matches_mem type_map sm1 kv hnd_tm hkv),
   vdwPotGo_idem ff sm2 pots,
   connMatchesGo_idem atom_slots conns sm3,
   connPot_idem ff kind st,
   chargesGo_idem ff atom_slots ch hnd_slots⟩

/-- Witness for claim C8 at concrete handler states. -/
theorem claim_C8_witness :
    FoyerVDWHandler.store_matches [(0, AtomTypeInfo.mk "opls_135")]
      (FoyerVDWHandler.store_matches [(0, AtomTypeInfo.mk "opls_135")] []) =
      FoyerVDWHandler.store_matches [(0, AtomTypeInfo.mk "opls_135")] [] ∧
    FoyerVDWHandler.store_potentials ffAtoms [(⟨[0]⟩, ⟨"opls_135"⟩)]
      (FoyerVDWHandler.store_potentials ffAtoms
        [(⟨[0]⟩, ⟨"opls_135"⟩)] []).1 =
      FoyerVDWHandler.store_potentials ffAtoms [(⟨[0]⟩, ⟨"opls_135"⟩)] [] ∧
    FoyerConnectedAtomsHandler.store_matches [(⟨[0]⟩, ⟨"opls_135"⟩)] [[0]]
      (FoyerConnectedAtomsHandler.store_matches [(⟨[0]⟩, ⟨"opls_135"⟩)]
        [[0]] []).1 =
      FoyerConnectedAtomsHandler.store_matches [(⟨[0]⟩, ⟨"opls_135"⟩)]
        [[0]] [] ∧
    ((FoyerConnectedAtomsHandler.store_potentials ffAtoms
        BondedKind.harmonicBond
      (FoyerConnectedAtomsHandler.store_potentials ffAtoms
        BondedKind.harmonicBond ⟨[(⟨[0, 1]⟩, ⟨"a-b"⟩)], []⟩).1).1 =
      (FoyerConnectedAtomsHandler.store_potentials ffAtoms
        BondedKind.harmonicBond ⟨[(⟨[0, 1]⟩, ⟨"a-b"⟩)], []⟩).1 ∧
     (FoyerConnectedAtomsHandler.store_potentials ffAtoms
        BondedKind.harmonicBond
      (FoyerConnectedAtomsHandler.store_potentials ffAtoms
        BondedKind.harmonicBond ⟨[(⟨[0, 1]⟩, ⟨"a-b"⟩)], []⟩).1).2.1 =
      (FoyerConnectedAtomsHandler.store_potentials ffAtoms
        BondedKind.harmonicBond ⟨[(⟨[0, 1]⟩, ⟨"a-b"⟩)], []⟩).2.1) ∧
    FoyerElectrostaticsHandler.store_charges [(⟨[0]⟩, ⟨"opls_135"⟩)] ffAtoms
      (FoyerElectrostaticsHandler.store_charges [(⟨[0]⟩, ⟨"opls_135"⟩)]
        ffAtoms []).1 =
      FoyerElectrostaticsHandler.store_charges [(⟨[0]⟩, ⟨"opls_135"⟩)]
        ffAtoms [] :=
  claim_C8 [(0, AtomTypeInfo.mk "opls_135")] [] [(⟨[0]⟩, ⟨"opls_135"⟩)] []
    ffAtoms [] [(⟨[0]⟩, ⟨"opls_135"⟩)] [[0]] []
    ⟨[(⟨[0, 1]⟩, ⟨"a-b"⟩)], []⟩ BondedKind.harmonicBond
    (by decide) (by decide)
